import Mathlib

/-!
Verification development for the diecast static-site generator.

The definitions below are a shallow embedding of the repository's core:
the dependency graph with topological resolution (src/lib/dependency.rs),
the route model (src/item.rs), handler chains (src/compiler.rs and
src/util/handle/item.rs), the draft predicates (src/util/handle/item.rs),
the site construction (src/site.rs) and the job manager
(src/job/manager.rs).  Rust machine integers here are Nat (no arithmetic
in the embedded code ever overflows usize), HashMap/BTreeMap values are
association lists with unique keys, HashSet values are duplicate-free
lists, and fallible operations return Option or Except.
-/

namespace Diecast

/-! ## Dependency graph: src/lib/dependency.rs

Node identifiers are Nat, matching the uint keys of the source.  A
HashSet is embedded as a duplicate-free list (insertion order); a
HashMap as an association list with unique keys.
-/

/-- HashSet::insert - add an element unless it is already present. -/
def insertSet (s : List Nat) (x : Nat) : List Nat :=
  if x ∈ s then s else s ++ [x]

/-- Replace the value stored at key k in an association list. -/
def updateMap (m : List (Nat × List Nat)) (k : Nat) (v : List Nat) :
    List (Nat × List Nat) :=
  m.map (fun p => if p.1 = k then (k, v) else p)

/-- Graph from dependency.rs: forward edges and the mirrored reverse map. -/
structure Graph where
  edges : List (Nat × List Nat)
  reverse : List (Nat × List Nat)
  deriving Repr, DecidableEq

/-- Graph::new -/
def Graph.new : Graph := ⟨[], []⟩

/-- Graph::add_node - insert an empty edge set if the key is vacant. -/
def Graph.add_node (g : Graph) (node : Nat) : Graph :=
  match g.edges.lookup node with
  | some _ => g
  | none => { g with edges := g.edges ++ [(node, [])] }

/-- Graph::add_edge - record a -> b in edges and b -> a in reverse. -/
def Graph.add_edge (g : Graph) (a b : Nat) : Graph :=
  let edges :=
    match g.edges.lookup a with
    | some s => updateMap g.edges a (insertSet s b)
    | none => g.edges ++ [(a, [b])]
  let reverse :=
    match g.reverse.lookup b with
    | some s => updateMap g.reverse b (insertSet s a)
    | none => g.reverse ++ [(b, [a])]
  ⟨edges, reverse⟩

/-- Graph::nodes - the keys of the edge map. -/
def Graph.nodes (g : Graph) : List Nat := g.edges.map Prod.fst

/-- Graph::neighbors_of - the edge set of a node, none when absent or empty. -/
def Graph.neighbors_of (g : Graph) (node : Nat) : Option (List Nat) :=
  (g.edges.lookup node).bind (fun s => if s.isEmpty then none else some s)

/-- Graph::dependents_of - edge-set lookup. -/
def Graph.dependents_of (g : Graph) (node : Nat) : Option (List Nat) :=
  g.edges.lookup node

/-- Graph::dependency_count - size of the reverse edge set, 0 when absent. -/
def Graph.dependency_count (g : Graph) (node : Nat) : Nat :=
  ((g.reverse.lookup node).map List.length).getD 0

/-- The generic manager graph exposes the reverse edge set directly.
Modelled from the spec: dependencies_of(n) is the set membership query on
the reverse map (the generic Graph used by the manager is not under src;
its reverse map is maintained exactly like the one of dependency.rs). -/
def Graph.dependencies_of (g : Graph) (node : Nat) : Option (List Nat) :=
  g.reverse.lookup node

/-- An edge of the graph as the traversal sees it: membership in the
looked-up forward edge set. -/
def EdgeB (g : Graph) (u v : Nat) : Prop :=
  v ∈ ((g.edges.lookup u).getD [])

instance (g : Graph) (u v : Nat) : Decidable (EdgeB g u v) := by
  unfold EdgeB; infer_instance

/-! ### Topological resolution (struct Topological)

The state carried by the recursive depth-first search of dependency.rs.
result models the Result field: none is Ok, some p is Err(p).  The
RingBuf of the source becomes a list whose head is the front. -/

structure TopoState where
  visited : List Nat
  onStack : List Nat
  edgeTo : List (Nat × Nat)
  topological : List Nat
  result : Option (List Nat)
  deriving Repr

/-- The initial Topological state (Topological::new). -/
def TopoState.new : TopoState := ⟨[], [], [], [], none⟩

/-- The while-let loop of the cycle branch: follow edge_to breadcrumbs,
pushing each found parent to the front of the path.  The loop of the
source terminates because breadcrumbs trace back the finite DFS stack;
the fuel only bounds that walk. -/
def traceBack (fuel : Nat) (et : List (Nat × Nat)) (n : Nat)
    (acc : List Nat) : List Nat :=
  match fuel with
  | 0 => acc
  | fuel + 1 =>
    match et.lookup n with
    | none => acc
    | some p => traceBack fuel et p (p :: acc)

/-- The path constructed in the cycle-detected branch of Topological::dfs:
path = [neighbor], push_front(node), then trace back breadcrumbs. -/
def cyclePath (et : List (Nat × Nat)) (node neighbor : Nat) : List Nat :=
  traceBack et.length et node [node, neighbor]

/-- The neighbor loop of Topological::dfs.  dfsRec is the recursive dfs
call (instantiated with one less unit of fuel).  The Bool of the output
is true when the loop returned early out of the whole dfs call. -/
def goF (g : Graph) (dfsRec : Nat → TopoState → TopoState) (node : Nat) :
    List Nat → TopoState → TopoState × Bool
  | [], st => (st, false)
  | v :: rest, st =>
    if st.result.isSome then (st, true)
    else if v ∉ st.visited then
      goF g dfsRec node rest
        (dfsRec v { st with edgeTo := (v, node) :: st.edgeTo })
    else if v ∈ st.onStack then
      goF g dfsRec node rest
        { st with result := some (cyclePath st.edgeTo node v) }
    else
      goF g dfsRec node rest st

/-- Topological::dfs.  On entry the node is pushed onto the stack and
marked visited; the neighbor loop may return early when the result is
already an error (skipping the stack pop and the push to the ordering);
otherwise the node is removed from the stack and pushed to the front of
the topological ordering.  The fuel decreases once per recursion depth;
resolution supplies more fuel than the graph has nodes. -/
def dfsF (g : Graph) : Nat → Nat → TopoState → TopoState
  | 0, _, st => st
  | fuel + 1, node, st =>
    let st1 : TopoState :=
      { st with onStack := node :: st.onStack, visited := node :: st.visited }
    let p := goF g (dfsF g fuel) node ((g.neighbors_of node).getD []) st1
    if p.2 then p.1
    else { p.1 with
           onStack := p.1.onStack.erase node,
           topological := node :: p.1.topological }

/-- The node loop of Topological::all - dfs from every not-yet-visited
node of the graph. -/
def allLoop (g : Graph) (fuel : Nat) : List Nat → TopoState → TopoState
  | [], st => st
  | n :: rest, st =>
    allLoop g fuel rest (if n ∈ st.visited then st else dfsF g fuel n st)

/-- Nodes that can ever take part in the traversal: the keys of the edge
map together with every member of an edge set. -/
def univ (g : Graph) : List Nat :=
  g.edges.map Prod.fst ++ (g.edges.map Prod.snd).flatten

/-- Topological::all - run dfs from every node, then
result.and(Ok(topological)). -/
def Graph.resolve_all (g : Graph) : Except (List Nat) (List Nat) :=
  let st := allLoop g ((univ g).length + 1) g.nodes TopoState.new
  match st.result with
  | some p => .error p
  | none => .ok st.topological

/-- Graph::resolve - topological ordering of the entire graph. -/
def Graph.resolve (g : Graph) : Except (List Nat) (List Nat) :=
  g.resolve_all

/-! ## Route: src/item.rs

Route is generic in the path type; the source uses PathBuf. -/

inductive Route (P : Type) where
  | Read (src : P)
  | Write (dst : P)
  | ReadWrite (src dst : P)
  deriving Repr, DecidableEq

namespace Route

/-- Route::reading - the applicable source path, when any. -/
def reading : Route P → Option P
  | .Write _ => none
  | .Read path => some path
  | .ReadWrite path _ => some path

/-- Route::writing - the applicable target path, when any. -/
def writing : Route P → Option P
  | .Read _ => none
  | .Write path => some path
  | .ReadWrite _ path => some path

/-- Route::route_to - reading routes to readwrite, writing routes to a
new write, readwrite routes to a new write. -/
def route_to (r : Route P) (router : P → P) : Route P :=
  match r with
  | .Read src => .ReadWrite src (router src)
  | .Write dst => .Write (router dst)
  | .ReadWrite src _ => .ReadWrite src (router src)

end Route

/-! ## Handler chains: src/util/handle/item.rs and src/compiler.rs

A handler mutates its target and may fail with a boxed error; the
embedding passes the target through, so a handler is T to Except E T.
Chain (util/handle) owns an ordered sequence of handlers; handle invokes
each in order with the try! short-circuit of the source. -/

def Handler (T E : Type) := T → Except E T

/-- Chain of handlers (struct Chain of util/handle, struct ItemChain /
BindChain of compiler.rs). -/
structure Chain (T E : Type) where
  handlers : List (Handler T E)

/-- Chain::link - push a handler at the end. -/
def Chain.link (c : Chain T E) (h : Handler T E) : Chain T E :=
  ⟨c.handlers ++ [h]⟩

/-- The handler loop shared by Chain::handle, ItemChain::handle and
BindChain::handle: invoke each handler in order, short-circuiting via
try! on the first error. -/
def chainRun : List (Handler T E) → T → Except E T
  | [], t => .ok t
  | h :: rest, t =>
    match h t with
    | .error e => .error e
    | .ok t' => chainRun rest t'

/-- Chain::handle (impl Handle of Item for Chain of Item, and the
ItemChain impl of compiler.rs). -/
def Chain.handle (c : Chain T E) (t : T) : Except E T :=
  chainRun c.handlers t

/-! ## Draft predicates: src/util/handle/item.rs -/

/-- The configuration fields the embedded code consults
(src/configuration.rs is an external input here; the spec lists its
fields). -/
structure Configuration where
  threads : Nat
  is_preview : Bool
  is_verbose : Bool
  deriving Repr, DecidableEq

/-- A TOML value as far as the draft predicates look at it (the toml
crate is an external collaborator). -/
inductive TomlV where
  | bool (b : Bool)
  | str (s : String)
  | int (n : Int)
  | table (kv : List (String × TomlV))
  deriving Repr

/-- toml::Value::lookup for a plain key - a table lookup, none on
non-tables. -/
def TomlV.lookup (v : TomlV) (k : String) : Option TomlV :=
  match v with
  | .table kv => kv.lookup k
  | _ => none

/-- toml::Value::as_bool. -/
def TomlV.as_bool : TomlV → Option Bool
  | .bool b => some b
  | _ => none

/-- An Item as the draft predicates see it: the Metadata attribute of
item.data (none when the attribute map holds no Metadata), and
item.bind().configuration. -/
structure UtilItem where
  metadata : Option TomlV
  configuration : Configuration
  deriving Repr

/-- is_draft from util/handle/item.rs. -/
def is_draft (item : UtilItem) : Bool :=
  (item.metadata.map (fun meta =>
    ((meta.lookup "draft").bind TomlV.as_bool).getD false)).getD false

/-- publishable from util/handle/item.rs. -/
def publishable (item : UtilItem) : Bool :=
  !(is_draft item && !item.configuration.is_preview)

/-! ## Site construction: src/site.rs -/

/-- threadpool::Pool::new(n) - a fixed pool of n workers (the threadpool
crate is an external collaborator; only its size matters here). -/
structure Pool where
  workers : Nat
  deriving Repr, DecidableEq

def Pool.new (n : Nat) : Pool := ⟨n⟩

/-- The Site as far as worker-pool sizing goes: Site::new builds the
evaluator pool and hands it to the manager. -/
structure SiteModel where
  configuration : Configuration
  managerPool : Pool
  deriving Repr, DecidableEq

/-- Site::new - let queue = job::evaluator::Pool::new(4); then
Manager::new(queue, configuration). -/
def SiteModel.new (configuration : Configuration) : SiteModel :=
  { configuration := configuration, managerPool := Pool.new 4 }

/-! ## Graphs built by sequences of add_node / add_edge calls -/

inductive GOp where
  | node (n : Nat)
  | edge (a b : Nat)
  deriving Repr, DecidableEq

def applyOp (g : Graph) : GOp → Graph
  | .node n => g.add_node n
  | .edge a b => g.add_edge a b

def buildGraph (ops : List GOp) : Graph :=
  ops.foldl applyOp Graph.new

/-- The distinct sources of the edges recorded into node b by a call
sequence. -/
def recordedDeps (ops : List GOp) (b : Nat) : List Nat :=
  (ops.filterMap (fun op =>
    match op with
    | .edge a c => if c = b then some a else none
    | .node _ => none)).dedup

/-- Whether an operation avoids naming b as add_node argument or as the
first add_edge argument. -/
def avoidsB (b : Nat) : GOp → Bool
  | .node n => n ≠ b
  | .edge a _ => a ≠ b

/-! ## Specification notions for topological resolution -/

/-- The state has no recorded cycle yet (the Result field is Ok). -/
def TopoState.isOk (st : TopoState) : Prop := st.result = none

/-- A front-first list is a topological ordering of g: duplicate-free,
and every edge source present in it comes strictly before the edge
target, which is also present. -/
def TopoProp (g : Graph) (l : List Nat) : Prop :=
  l.Nodup ∧ ∀ u v, EdgeB g u v → u ∈ l →
    (v ∈ l ∧ l.indexOf u < l.indexOf v)

/-- A cycle-report path: consecutive elements are edges of the graph and
the last element already occurs earlier in the path. -/
def PathProp (g : Graph) (p : List Nat) : Prop :=
  List.Chain' (EdgeB g) p ∧ ∃ c, p.getLast? = some c ∧ c ∈ p.dropLast

/-- A nonempty edge path between two nodes. -/
inductive EdgePathP (g : Graph) : Nat → Nat → Prop where
  | single {u v : Nat} : EdgeB g u v → EdgePathP g u v
  | cons {u v w : Nat} : EdgeB g u v → EdgePathP g v w → EdgePathP g u w

/-- Acyclicity: no nonempty edge path returns to its start. -/
def Acyclic (g : Graph) : Prop := ∀ u, ¬ EdgePathP g u u

/-- The stack is linked bottom-up by edge_to breadcrumbs and its bottom
element has no breadcrumb. -/
inductive IsChain (et : List (Nat × Nat)) : List Nat → Prop where
  | nil : IsChain et []
  | single (n : Nat) : et.lookup n = none → IsChain et [n]
  | cons (n p : Nat) (rest : List Nat) :
      et.lookup n = some p → IsChain et (p :: rest) →
      IsChain et (n :: p :: rest)

/-- Number of universe nodes not yet visited; this bounds the remaining
recursion depth of the search. -/
def ucount (g : Graph) (st : TopoState) : Nat :=
  ((univ g).filter (fun x => decide (x ∉ st.visited))).length

/-- Every breadcrumb key is a visited node. -/
def EtVis (st : TopoState) : Prop :=
  ∀ x u, st.edgeTo.lookup x = some u → x ∈ st.visited

/-- State invariant maintained by the depth-first search. -/
structure Inv (g : Graph) (st : TopoState) : Prop where
  stack_vis : ∀ x ∈ st.onStack, x ∈ st.visited
  topo_vis : ∀ x ∈ st.topological, x ∈ st.visited
  vis_split : ∀ x ∈ st.visited, x ∈ st.onStack ∨ x ∈ st.topological
  stack_nodup : st.onStack.Nodup
  stack_topo : ∀ x ∈ st.onStack, x ∉ st.topological
  topo_prop : st.result = none → TopoProp g st.topological
  et_edge : ∀ v u, st.edgeTo.lookup v = some u → EdgeB g u v
  res_path : ∀ p, st.result = some p → PathProp g p

/-- How a call of the search extends the state: visited and the ordering
only grow, an error is permanent, and breadcrumbs of already-visited
nodes are stable. -/
structure Ext (st st2 : TopoState) : Prop where
  vis : ∀ x ∈ st.visited, x ∈ st2.visited
  topo : ∀ x ∈ st.topological, x ∈ st2.topological
  res : ∀ p, st.result = some p → st2.result = some p
  et : ∀ x ∈ st.visited, st2.edgeTo.lookup x = st.edgeTo.lookup x

/-- Every breadcrumb key is visited, except possibly the node about to
be visited (its breadcrumb is written just before its dfs call). -/
def EtVisX (st : TopoState) (node : Nat) : Prop :=
  ∀ x u, st.edgeTo.lookup x = some u → (x ∈ st.visited ∨ x = node)

/-- Postcondition of a dfs call. -/
structure DfsOut (g : Graph) (node : Nat) (st st2 : TopoState) : Prop where
  inv : Inv g st2
  ext : Ext st st2
  etv : EtVis st2
  vis : node ∈ st2.visited
  stack_mem : ∀ x ∈ st.onStack, x ∈ st2.onStack
  oks : st2.isOk → st2.onStack = st.onStack ∧ node ∈ st2.topological

/-- Postcondition of the neighbor loop. -/
structure GoOut (g : Graph) (node : Nat) (ns : List Nat) (st : TopoState)
    (out : TopoState × Bool) : Prop where
  inv : Inv g out.1
  ext : Ext st out.1
  etv : EtVis out.1
  stack_mem : ∀ x ∈ st.onStack, x ∈ out.1.onStack
  early : out.2 = true → ¬ out.1.isOk
  oks : out.1.isOk → out.1.onStack = st.onStack
  oka : out.1.isOk → out.2 = false → ∀ v ∈ ns, v ∈ out.1.topological

/-- Postcondition of the node loop of Topological::all. -/
structure AllOut (g : Graph) (ns : List Nat) (st st2 : TopoState) : Prop where
  inv : Inv g st2
  ext : Ext st st2
  etv : EtVis st2
  vis : ∀ n ∈ ns, n ∈ st2.visited
  oks : st2.isOk → st2.onStack = st.onStack

def cfgC8 : Configuration :=
  { threads := 2, is_preview := false, is_verbose := false }

def itemC9 : UtilItem :=
  { metadata := some (.table [("draft", .bool true)]), configuration := cfgC8 }

def opsC10 : List GOp := [GOp.edge 1 2, GOp.edge 3 2, GOp.node 1]

/-- A concrete acyclic graph: edges 1 to 2 and 2 to 3. -/
def gC1W : Graph := (Graph.new.add_edge 1 2).add_edge 2 3

/-- A concrete cyclic graph whose cycle does not contain the first
traversal root: edges 1 to 2, 2 to 3, 3 to 2. -/
def gC2X : Graph := ((Graph.new.add_edge 1 2).add_edge 2 3).add_edge 3 2

/-! ## Job manager: src/job/manager.rs

Rule names and paths are Nat.  BTreeMap and HashMap values are
association lists with unique keys; only the fields that influence
scheduling are carried (handlers mutate bodies and attributes, which the
scheduler never inspects). -/

/-- Generic association-list update of the value at a present key. -/
def updateA {α : Type} (m : List (Nat × α)) (k : Nat) (v : α) :
    List (Nat × α) :=
  m.map (fun p => if p.1 = k then (k, v) else p)

/-- Map insert: replace at a present key, append otherwise. -/
def insertA {α : Type} (m : List (Nat × α)) (k : Nat) (v : α) :
    List (Nat × α) :=
  if (m.lookup k).isSome then updateA m k v else m ++ [(k, v)]

/-- Map remove. -/
def removeA {α : Type} (m : List (Nat × α)) (k : Nat) : List (Nat × α) :=
  m.filter (fun p => decide (p.1 ≠ k))

/-- entry(k).or_insert(0) += c on a counter map. -/
def bumpA (m : List (Nat × Nat)) (k : Nat) (c : Nat) : List (Nat × Nat) :=
  if (m.lookup k).isSome
  then m.map (fun p => if p.1 = k then (p.1, p.2 + c) else p)
  else m ++ [(k, c)]

/-- Modelled from the spec: a glob pattern (the glob crate is an
external collaborator) is embedded extensionally as the finite set of
paths it matches. -/
structure Pattern where
  matchSet : List Nat
  deriving Repr, DecidableEq

def Pattern.matches (pat : Pattern) (p : Nat) : Bool :=
  p ∈ pat.matchSet

/-- Modelled from the spec: rule::Kind (src/rule.rs is not under src/;
section 3 of the spec defines Kind as Creating or Matching(pattern)). -/
inductive Kind where
  | Creating
  | Matching (pattern : Pattern)
  deriving Repr, DecidableEq

/-- Modelled from the spec: a Rule is a unique name, a Kind and a
dependency name set (src/rule.rs is not under src/). -/
structure Rule where
  name : Nat
  kind : Kind
  dependencies : List Nat
  deriving Repr, DecidableEq

/-- An Item as the manager sees it: its Route and stale flag. -/
structure MItem where
  route : Route Nat
  stale : Bool
  deriving Repr, DecidableEq

/-- item::set_stale -/
def MItem.set_stale (it : MItem) (s : Bool) : MItem := { it with stale := s }

/-- A Bind as the manager sees it: the rule name from its Data, its
items and its stale flag. -/
structure MBind where
  name : Nat
  items : List MItem
  stale : Bool
  deriving Repr, DecidableEq

/-- bind::set_stale -/
def MBind.set_stale (b : MBind) (s : Bool) : MBind := { b with stale := s }

/-- A Job (src/job/mod.rs): bind_data.name, the rule kind and the
optional bind.  The handler and the path-list snapshot are carried by
the real Job but never read by the manager's scheduling logic. -/
structure MJob where
  name : Nat
  kind : Kind
  bind : Option MBind
  deriving Repr, DecidableEq

/-- Job::process (src/job/mod.rs): on the first run build the bind -
Matching kinds populate one Read item per matching path, Creating kinds
start empty - and run the handler; on a rerun reuse the existing bind.
The handler only mutates bodies and attributes, which this model does
not carry. -/
def MJob.process (job : MJob) (paths : List Nat) : MJob :=
  match job.bind with
  | some _ => job
  | none =>
    let items :=
      match job.kind with
      | .Creating => []
      | .Matching pattern =>
        (paths.filter (fun p => pattern.matches p)).map
          (fun p => MItem.mk (Route.Read p) false)
    { job with bind := some (MBind.mk job.name items false) }

/-- The Manager state (struct Manager of src/job/manager.rs). -/
structure ManagerM where
  rules : List (Nat × Rule)
  graph : Graph
  dependencies : List (Nat × Nat)
  waiting : List MJob
  finished : List (Nat × MBind)
  count : Nat
  deriving Repr, DecidableEq

/-- Manager::new -/
def ManagerM.new : ManagerM := ⟨[], Graph.new, [], [], [], 0⟩

/-- Manager::add: bump the count, push a fresh job to the front of the
waiting queue, add the rule as a graph node, add an edge dep -> rule for
each declared dependency, and store the rule. -/
def ManagerM.add (m : ManagerM) (rule : Rule) : ManagerM :=
  let bind := rule.name
  { m with
    count := m.count + 1,
    waiting := MJob.mk rule.name rule.kind none :: m.waiting,
    graph := rule.dependencies.foldl (fun g dep => g.add_edge dep bind)
      (m.graph.add_node bind),
    rules := insertA m.rules rule.name rule }

/-- Manager::satisfy: for every name among the dependency-map keys that
is a dependent of the finished bind, decrement its remaining count.  The
source iterates the key list and decrements through the entry API; with
unique keys that equals this in-place map. -/
def ManagerM.satisfy (m : ManagerM) (bind : Nat) : ManagerM :=
  match m.graph.dependents_of bind with
  | none => m
  | some dependents =>
    { m with dependencies :=
        m.dependencies.map (fun p =>
          if p.1 ∈ dependents then (p.1, p.2 - 1) else p) }

/-- Manager::ready: split the waiting queue, keeping relative order, by
whether the remaining count is zero.  The source indexes the dependency
map (and would panic on a missing name); every waiting name has an
entry whenever ready runs, and the model defaults to 0. -/
def ManagerM.ready (m : ManagerM) : List MJob × ManagerM :=
  let part := m.waiting.partition
    (fun job => ((m.dependencies.lookup job.name).getD 0) == 0)
  (part.1, { m with waiting := part.2 })

/-- Manager::enqueue_ready: drain the ready jobs and hand them to the
evaluator (returned second); the dependency-Bind snapshot copied into
each job's bind_data is not carried by the model. -/
def ManagerM.enqueue_ready (m : ManagerM) : ManagerM × List MJob :=
  let r := m.ready
  (r.2, r.1)

/-- The order loop of Manager::sort_jobs: take each name's job out of
the map and bump its dependency count by the graph dependency count;
none models the unwrap panic on a missing job. -/
def sortLoop (g : Graph) : List Nat → List (Nat × MJob) →
    List (Nat × Nat) →
    Option (List MJob × List (Nat × MJob) × List (Nat × Nat))
  | [], jm, deps => some ([], jm, deps)
  | name :: rest, jm, deps =>
    match jm.lookup name with
    | none => none
    | some job =>
      match sortLoop g rest (removeA jm name)
          (bumpA deps name (g.dependency_count name)) with
      | none => none
      | some (js, jm2, deps2) => some (job :: js, jm2, deps2)

/-- Manager::sort_jobs: none models a failed assert (length mismatch,
missing job, or leftover jobs). -/
def ManagerM.sort_jobs (m : ManagerM) (order : List Nat) :
    Option ManagerM :=
  if m.waiting.length ≠ order.length then none
  else
    match sortLoop m.graph order
        (m.waiting.map (fun job => (job.name, job))) m.dependencies with
    | none => none
    | some (js, jm2, deps2) =>
      if jm2.isEmpty
      then some { m with waiting := js, dependencies := deps2 }
      else none

/-- Manager::handle_done: clear the bind's stale flag, install it into
finished, satisfy the dependents, and enqueue the newly ready jobs;
none models the into_bind unwrap panic on a bind-less job. -/
def ManagerM.handle_done (m : ManagerM) (current : MJob) :
    Option (ManagerM × List MJob) :=
  match current.bind with
  | none => none
  | some b =>
    let bind := current.name
    let m1 := { m with
      finished := insertA m.finished bind (b.set_stale false) }
    let m2 := m1.satisfy bind
    some m2.enqueue_ready

/-- Modelled from the spec: resolve(starts) of the generic manager
Graph - the restricted topological ordering over the transitive closure
of the start set under the dependents relation (nodes outside the
closure are omitted).  This generalizes Topological::from of
dependency.rs from one start node to a set, reusing its dfs. -/
def Graph.resolve_from (g : Graph) (starts : List Nat) :
    Except (List Nat) (List Nat) :=
  let st := allLoop g ((univ g).length + 1) starts TopoState.new
  match st.result with
  | some p => .error p
  | none => .ok st.topological

/-- The item-marking loop of Manager::update: an item whose reading
path is removed from the affected set becomes stale. -/
def markItems : List MItem → List Nat → List MItem × List Nat
  | [], affected => ([], affected)
  | it :: rest, affected =>
    match it.route.reading with
    | some p =>
      if p ∈ affected then
        let r := markItems rest (affected.erase p)
        (it.set_stale true :: r.1, r.2)
      else
        let r := markItems rest affected
        (it :: r.1, r.2)
    | none =>
      let r := markItems rest affected
      (it :: r.1, r.2)

/-- The finished-bind scan of Manager::update: for each finished bind
whose rule is Matching, compute the affected paths, mark the clone's
items and bind stale, and record the bind under matched (with the
clone) or didnt; Creating rules are skipped entirely.  none models the
rule-map index panic. -/
def updateScan (rules : List (Nat × Rule)) (paths : List Nat) :
    List (Nat × MBind) →
    Option (List Nat × List Nat × List (Nat × MBind))
  | [] => some ([], [], [])
  | (_, bind) :: rest =>
    let name := bind.name
    match rules.lookup name with
    | none => none
    | some rule =>
      match rule.kind with
      | .Creating => updateScan rules paths rest
      | .Matching pattern =>
        let affected := paths.filter (fun p => pattern.matches p)
        let is_match := affected.length > 0
        let marked := markItems bind.items affected
        let modified := MBind.set_stale { bind with items := marked.1 } true
        match updateScan rules paths rest with
        | none => none
        | some (matched, didnt, binds) =>
          if is_match
          then some (name :: matched, didnt, (name, modified) :: binds)
          else some (matched, name :: didnt, binds)

/-- The job-construction loop of Manager::update: for each name of the
restricted order, build a job from the finished bind's data and the
rule, attach the pre-dirtied clone when present, and push it to the
front of the waiting queue.  none models the finished / rule index
panics. -/
def buildJobs : ManagerM → List Nat → List (Nat × MBind) →
    Option (ManagerM × List (Nat × MBind))
  | m, [], binds => some (m, binds)
  | m, name :: rest, binds =>
    match m.finished.lookup name with
    | none => none
    | some bind =>
      match m.rules.lookup bind.name with
      | none => none
      | some rule =>
        let job : MJob := ⟨bind.name, rule.kind, binds.lookup name⟩
        buildJobs { m with waiting := job :: m.waiting } rest
          (removeA binds name)

/-- Step 6 of Manager::update: for each ordered name, subtract from its
remaining count the number of its graph dependencies that lie in didnt. -/
def subtractDidnt (g : Graph) (order didnt : List Nat)
    (deps0 : List (Nat × Nat)) : List (Nat × Nat) :=
  order.foldl (fun deps name =>
    match g.dependencies_of name with
    | none => deps
    | some ds =>
      let affected := (ds.filter (fun d => decide (d ∈ didnt))).length
      deps.map (fun p => if p.1 = name then (p.1, p.2 - affected) else p))
    deps0

/-- Manager::update up to and including the first enqueue_ready (the
dequeue loop that follows consumes the returned evaluator jobs).  The
second component is the list of jobs handed to the evaluator; none
models exit(1) on a cycle and the index/assert panics. -/
def ManagerM.update (m : ManagerM) (paths : List Nat) :
    Option (ManagerM × List MJob) :=
  if m.count = 0 then some (m, [])
  else
    match updateScan m.rules paths m.finished with
    | none => none
    | some (matched, didnt, binds) =>
      if matched.isEmpty then some (m, [])
      else
        let m1 := { m with waiting := [] }
        match m1.graph.resolve_from matched with
        | .error _ => none
        | .ok order =>
          match buildJobs m1 order binds with
          | none => none
          | some (m2, _) =>
            match m2.sort_jobs order with
            | none => none
            | some m3 =>
              let deps4 := subtractDidnt m3.graph order didnt m3.dependencies
              let m4 := { m3 with dependencies := deps4 }
              some m4.enqueue_ready

/-- The build dispatch loop as a transition relation: some completed job
is dequeued (in any order), processed by a worker, and handled; the
newly ready jobs join the in-flight pool. -/
structure BState where
  m : ManagerM
  inflight : List MJob
  deriving Repr, DecidableEq

inductive BStep (paths : List Nat) : BState → BState → Prop where
  | done (bs : BState) (pre post : List MJob) (j : MJob)
      (m2 : ManagerM) (newJobs : List MJob)
      (hsplit : bs.inflight = pre ++ j :: post)
      (hdone : bs.m.handle_done (j.process paths) = some (m2, newJobs)) :
      BStep paths bs ⟨m2, (pre ++ post) ++ newJobs⟩

/-- Site::register discipline: names unique, dependencies declared only
on previously registered names. -/
def registeredAux (seen : List Nat) : List Rule → Bool
  | [] => true
  | r :: rest =>
    decide (r.name ∉ seen) && r.dependencies.all (fun d => decide (d ∈ seen))
      && registeredAux (r.name :: seen) rest

def registered (rs : List Rule) : Bool := registeredAux [] rs

/-- Decidable form of the untouched-input condition of claim C5: every
finished bind has a rule, and no finished Matching bind's pattern
matches any of the changed paths. -/
def untouchedB (m : ManagerM) (paths : List Nat) : Bool :=
  m.finished.all (fun pr =>
    match m.rules.lookup pr.2.name with
    | none => false
    | some rule =>
      match rule.kind with
      | Kind.Creating => true
      | Kind.Matching pattern =>
        (paths.filter (fun p => pattern.matches p)).isEmpty)

/-- The failing input of claim C4: rule 1 is Creating with no
dependencies, rule 2 is Matching on path 9 and depends on rule 1; the
manager state mirrors the one after a completed full build followed by
prepare (rules re-added, graph rebuilt, finished populated, leftover
zero counters). -/
def ruleC4A : Rule := ⟨1, Kind.Creating, []⟩

def ruleC4B : Rule := ⟨2, Kind.Matching ⟨[9]⟩, [1]⟩

def bindC4A : MBind := ⟨1, [], false⟩

def bindC4B : MBind := ⟨2, [⟨Route.Read 9, false⟩], false⟩

def mC4 : ManagerM :=
  { rules := [(1, ruleC4A), (2, ruleC4B)],
    graph := ((Graph.new.add_node 1).add_node 2).add_edge 1 2,
    dependencies := [(1, 0), (2, 0)],
    waiting := [MJob.mk 2 ruleC4B.kind none, MJob.mk 1 ruleC4A.kind none],
    finished := [(1, bindC4A), (2, bindC4B)],
    count := 2 }

/-- The forward edge set of a node as a list (empty when absent). -/
def edgeSet (g : Graph) (n : Nat) : List Nat := (g.edges.lookup n).getD []

/-- The reverse edge set (recorded dependencies) of a node as a list. -/
def revSet (g : Graph) (n : Nat) : List Nat := (g.reverse.lookup n).getD []

/-- Well-formedness maintained by add_node and add_edge: the forward
and reverse maps mirror each other and reverse sets are duplicate-free. -/
structure GraphWF (g : Graph) : Prop where
  mirror : ∀ a b, b ∈ edgeSet g a ↔ a ∈ revSet g b
  rev_nodup : ∀ n, (revSet g n).Nodup

/-- The dispatch-loop invariant of a full build over a topological
order: the graph is fixed, the dependency map is keyed exactly by the
order, every ordered name sits in exactly one of waiting / in-flight /
finished, and each remaining count plus the number of its finished
dependencies equals its dependency count. -/
structure MInv (g : Graph) (order : List Nat) (bs : BState) : Prop where
  graph_eq : bs.m.graph = g
  keys_eq : bs.m.dependencies.map Prod.fst = order
  perm : (bs.m.waiting.map MJob.name ++ bs.inflight.map MJob.name
           ++ bs.m.finished.map Prod.fst).Perm order
  counters : ∀ n c, bs.m.dependencies.lookup n = some c →
      c + ((revSet g n).filter
        (fun d => decide (d ∈ bs.m.finished.map Prod.fst))).length
        = (revSet g n).length

/-- The two-rule full build used to witness claim C3: rule 1 has no
dependencies and rule 2 depends on rule 1. -/
def rsC3 : List Rule := [⟨1, .Creating, []⟩, ⟨2, .Creating, [1]⟩]

/-- The manager produced by sort_jobs on the resolved order [1, 2] of
the rsC3 build. -/
def mC3 : ManagerM :=
  { rules := [(1, ⟨1, .Creating, []⟩), (2, ⟨2, .Creating, [1]⟩)],
    graph := ⟨[(1, [2]), (2, [])], [(2, [1])]⟩,
    dependencies := [(1, 0), (2, 1)],
    waiting := [⟨1, .Creating, none⟩, ⟨2, .Creating, none⟩],
    finished := [], count := 2 }

/-- The dispatch state right after the initial enqueue of the rsC3
build. -/
def bsC3 : BState := ⟨(mC3.enqueue_ready).1, (mC3.enqueue_ready).2⟩

/-! ## Theorems for the simpler claims -/

/-- Claim C7: route_to maps Read(src) to ReadWrite(src, f(src)); maps
Write(dst) to Write(f(dst)); maps ReadWrite(src, dst) to a ReadWrite
whose destination is recomputed by f; and on Read and ReadWrite inputs
the source path of the result equals the source path of the input. -/
theorem c7_route_to_spec (P : Type) (f : P → P) (src dst : P) :
    (Route.Read src).route_to f = Route.ReadWrite src (f src)
    ∧ (Route.Write dst).route_to f = Route.Write (f dst)
    ∧ (Route.ReadWrite src dst).route_to f = Route.ReadWrite src (f src)
    ∧ ((Route.Read src).route_to f).reading = (Route.Read (P := P) src).reading
    ∧ ((Route.ReadWrite src dst).route_to f).reading
        = (Route.ReadWrite src dst).reading :=
  ⟨rfl, rfl, rfl, rfl, rfl⟩

/-- Claim C6: the empty chain succeeds with its input unchanged, and a
chain split as hs1 ++ h :: hs2 first runs hs1; an error there is returned
as is and h and hs2 are never consulted; otherwise h runs on the
intermediate value, an error there is returned as is and hs2 is never
consulted; otherwise hs2 runs on h's output.  Instantiating hs1 with the
handlers before the i-th and hs2 with those after it gives the declared
order with fail-fast short-circuiting. -/
theorem c6_chain_handle_spec (T E : Type) (hs1 hs2 : List (Handler T E))
    (h : Handler T E) (x : T) :
    (⟨[]⟩ : Chain T E).handle x = .ok x
    ∧ (⟨hs1 ++ h :: hs2⟩ : Chain T E).handle x =
        (match (⟨hs1⟩ : Chain T E).handle x with
         | .error e => .error e
         | .ok y =>
           match h y with
           | .error e => .error e
           | .ok z => (⟨hs2⟩ : Chain T E).handle z) := by
  refine ⟨rfl, ?_⟩
  induction hs1 generalizing x with
  | nil =>
    simp only [Chain.handle, List.nil_append, chainRun]
  | cons hd tl ih =>
    simp only [Chain.handle, List.cons_append, chainRun] at *
    cases hd x with
    | error e => rfl
    | ok y => exact ih y

/-- Claim C8, evaluated at the failing input: a configuration requesting
2 threads still yields a Site whose manager pool has 4 workers, because
Site::new hardcodes Pool::new(4) and never reads configuration.threads. -/
theorem c8_pool_size_ignores_threads :
    (SiteModel.new cfgC8).managerPool.workers = 4
    ∧ cfgC8.threads = 2
    ∧ (SiteModel.new cfgC8).managerPool.workers ≠ cfgC8.threads :=
  ⟨rfl, rfl, by decide⟩

/-- Claim C9: publishable is false exactly when is_draft holds and
is_preview is off; is_preview on makes every item publishable; and
is_draft is false when the metadata is absent, when the draft key is
absent, and when the draft value is not a boolean. -/
theorem c9_publishable_spec (item : UtilItem) :
    (publishable item = false ↔
       (is_draft item = true ∧ item.configuration.is_preview = false))
    ∧ (item.configuration.is_preview = true → publishable item = true)
    ∧ (item.metadata = none → is_draft item = false)
    ∧ (∀ m, item.metadata = some m → m.lookup "draft" = none →
        is_draft item = false)
    ∧ (∀ m v, item.metadata = some m → m.lookup "draft" = some v →
        v.as_bool = none → is_draft item = false) := by
  refine ⟨?_, ?_, ?_, ?_, ?_⟩
  · unfold publishable
    cases hd : is_draft item <;>
      cases hp : item.configuration.is_preview <;> simp [hd, hp]
  · intro hp; unfold publishable; simp [hp]
  · intro hm; unfold is_draft; simp [hm]
  · intro m hm hl; unfold is_draft; simp [hm, hl]
  · intro m v hm hl hb; unfold is_draft; simp [hm, hl, hb]

/-- Witness for claim C9: a concrete drafted item under a non-preview
configuration is not publishable. -/
theorem c9_publishable_witness : publishable itemC9 = false :=
  ((c9_publishable_spec itemC9).1).mpr ⟨rfl, rfl⟩

/-! ## Association-list helper lemmas -/

theorem lookup_cons_self {α : Type} (a : Nat) (v : α) (l : List (Nat × α)) :
    ((a, v) :: l).lookup a = some v := by
  simp

theorem lookup_cons_ne {α : Type} {k a : Nat} (v : α) (l : List (Nat × α))
    (h : k ≠ a) : ((a, v) :: l).lookup k = l.lookup k := by
  simp [List.lookup_cons, beq_eq_false_iff_ne.mpr h]

theorem lookup_append_of_none {α : Type} {l1 : List (Nat × α)}
    (l2 : List (Nat × α)) {k : Nat} (h : l1.lookup k = none) :
    (l1 ++ l2).lookup k = l2.lookup k := by
  induction l1 with
  | nil => rfl
  | cons p rest ih =>
    rcases p with ⟨a, v⟩
    rw [List.cons_append]
    by_cases hk : k = a
    · subst hk
      rw [lookup_cons_self] at h
      exact absurd h (by simp)
    · rw [lookup_cons_ne _ _ hk] at h
      rw [lookup_cons_ne _ _ hk]
      exact ih h

theorem lookup_append_left {α : Type} {l1 : List (Nat × α)}
    (l2 : List (Nat × α)) {k : Nat} {v : α} (h : l1.lookup k = some v) :
    (l1 ++ l2).lookup k = some v := by
  induction l1 with
  | nil => simp [List.lookup] at h
  | cons p rest ih =>
    rcases p with ⟨a, w⟩
    rw [List.cons_append]
    by_cases hk : k = a
    · subst hk
      rw [lookup_cons_self] at h
      rw [lookup_cons_self]
      exact h
    · rw [lookup_cons_ne _ _ hk] at h
      rw [lookup_cons_ne _ _ hk]
      exact ih h

theorem lookup_updateMap_eq {m : List (Nat × List Nat)} {k : Nat}
    {w : List Nat} (v : List Nat) (h : m.lookup k = some w) :
    (updateMap m k v).lookup k = some v := by
  induction m with
  | nil => simp [List.lookup] at h
  | cons p rest ih =>
    rcases p with ⟨a, s⟩
    by_cases hk : a = k
    · subst hk
      simp [updateMap, lookup_cons_self]
    · rw [lookup_cons_ne _ _ (fun hh => hk hh.symm)] at h
      simp only [updateMap, List.map_cons, if_neg hk]
      rw [lookup_cons_ne _ _ (fun hh => hk hh.symm)]
      exact ih h

theorem lookup_updateMap_ne (m : List (Nat × List Nat)) (k : Nat)
    (v : List Nat) {j : Nat} (h : j ≠ k) :
    (updateMap m k v).lookup j = m.lookup j := by
  induction m with
  | nil => rfl
  | cons p rest ih =>
    rcases p with ⟨a, s⟩
    by_cases ha : a = k
    · subst ha
      simp only [updateMap, List.map_cons] at *
      rw [if_pos trivial]
      rw [lookup_cons_ne _ _ h, lookup_cons_ne _ _ h]
      exact ih
    · simp only [updateMap, List.map_cons, if_neg ha] at *
      by_cases hj : j = a
      · subst hj
        rw [lookup_cons_self, lookup_cons_self]
      · rw [lookup_cons_ne _ _ hj, lookup_cons_ne _ _ hj]
        exact ih

theorem isSome_lookup_of_mem_keys {α : Type} {m : List (Nat × α)} {k : Nat}
    (h : k ∈ m.map Prod.fst) : (m.lookup k).isSome := by
  induction m with
  | nil => simp at h
  | cons p rest ih =>
    rcases p with ⟨a, v⟩
    by_cases hk : k = a
    · subst hk
      rw [lookup_cons_self]
      rfl
    · rw [lookup_cons_ne _ _ hk]
      simp only [List.map_cons, List.mem_cons] at h
      exact ih (h.resolve_left hk)

theorem mem_insertSet {s : List Nat} {x y : Nat} :
    y ∈ insertSet s x ↔ (y ∈ s ∨ y = x) := by
  unfold insertSet
  by_cases h : x ∈ s
  · simp only [if_pos h]
    constructor
    · exact Or.inl
    · rintro (hy | rfl)
      · exact hy
      · exact h
  · simp [if_neg h]

theorem nodup_insertSet {s : List Nat} (x : Nat) (h : s.Nodup) :
    (insertSet s x).Nodup := by
  unfold insertSet
  by_cases hx : x ∈ s
  · simpa [if_pos hx]
  · rw [if_neg hx]
    simpa [List.nodup_append] using ⟨h, fun hmem => hx hmem⟩

/-! ## Claim C10 -/

theorem revList_add_edge (g : Graph) (a b : Nat) :
    ((g.add_edge a b).reverse.lookup b).getD [] =
      insertSet ((g.reverse.lookup b).getD []) a := by
  show ((match g.reverse.lookup b with
         | some s => updateMap g.reverse b (insertSet s a)
         | none => g.reverse ++ [(b, [a])]).lookup b).getD [] = _
  cases hR : g.reverse.lookup b with
  | none =>
    rw [lookup_append_of_none _ hR, lookup_cons_self]
    simp [insertSet]
  | some s =>
    rw [lookup_updateMap_eq _ hR]
    rfl

theorem reverse_lookup_add_edge_ne (g : Graph) (a b j : Nat) (h : j ≠ b) :
    (g.add_edge a b).reverse.lookup j = g.reverse.lookup j := by
  show (match g.reverse.lookup b with
        | some s => updateMap g.reverse b (insertSet s a)
        | none => g.reverse ++ [(b, [a])]).lookup j = _
  cases hR : g.reverse.lookup b with
  | none =>
    cases hj : g.reverse.lookup j with
    | none =>
      rw [lookup_append_of_none _ hj, lookup_cons_ne _ _ h]
      rfl
    | some s => rw [lookup_append_left _ hj]
  | some s =>
    exact lookup_updateMap_ne _ _ _ h

theorem edges_lookup_add_edge_preserved (g : Graph) (a b j : Nat)
    (ha : a ≠ j) (h : g.edges.lookup j = none) :
    (g.add_edge a b).edges.lookup j = none := by
  show (match g.edges.lookup a with
        | some s => updateMap g.edges a (insertSet s b)
        | none => g.edges ++ [(a, [b])]).lookup j = none
  cases hE : g.edges.lookup a with
  | none =>
    rw [lookup_append_of_none _ h, lookup_cons_ne _ _ (Ne.symm ha)]
    rfl
  | some s =>
    rw [lookup_updateMap_ne _ _ _ (Ne.symm ha)]
    exact h

theorem edges_lookup_add_node_preserved (g : Graph) (n j : Nat)
    (hn : n ≠ j) (h : g.edges.lookup j = none) :
    (g.add_node n).edges.lookup j = none := by
  unfold Graph.add_node
  cases hE : g.edges.lookup n with
  | some s => exact h
  | none =>
    show (g.edges ++ [(n, [])]).lookup j = none
    rw [lookup_append_of_none _ h, lookup_cons_ne _ _ (Ne.symm hn)]
    rfl

theorem add_node_reverse (g : Graph) (n : Nat) :
    (g.add_node n).reverse = g.reverse := by
  unfold Graph.add_node
  cases g.edges.lookup n <;> rfl

theorem c10_build_aux (b : Nat) :
    ∀ (ops : List GOp) (g : Graph),
    (∀ op ∈ ops, avoidsB b op = true) →
    g.edges.lookup b = none →
    ((g.reverse.lookup b).getD []).Nodup →
    ((ops.foldl applyOp g).edges.lookup b = none
     ∧ (((ops.foldl applyOp g).reverse.lookup b).getD []).Nodup
     ∧ ∀ a, a ∈ (((ops.foldl applyOp g).reverse.lookup b).getD []) ↔
         (a ∈ ((g.reverse.lookup b).getD []) ∨ GOp.edge a b ∈ ops)) := by
  intro ops
  induction ops with
  | nil =>
    intro g _ hE hN
    exact ⟨hE, hN, fun a => by simp⟩
  | cons op rest ih =>
    intro g hAv hE hN
    have hop := hAv op (List.mem_cons_self op rest)
    have hrest : ∀ o ∈ rest, avoidsB b o = true :=
      fun o ho => hAv o (List.mem_cons_of_mem op ho)
    rw [List.foldl_cons]
    cases op with
    | node n =>
      have hn : n ≠ b := by simpa [avoidsB] using hop
      simp only [applyOp]
      have hE' : (g.add_node n).edges.lookup b = none :=
        edges_lookup_add_node_preserved g n b hn hE
      have hR' := add_node_reverse g n
      obtain ⟨h1, h2, h3⟩ := ih (g.add_node n) hrest hE' (by rw [hR']; exact hN)
      refine ⟨h1, h2, fun a => ?_⟩
      rw [h3 a, hR']
      simp
    | edge x y =>
      have hx : x ≠ b := by simpa [avoidsB] using hop
      simp only [applyOp]
      have hE' : (g.add_edge x y).edges.lookup b = none :=
        edges_lookup_add_edge_preserved g x y b hx hE
      by_cases hy : y = b
      · subst hy
        have hrev := revList_add_edge g x y
        obtain ⟨h1, h2, h3⟩ := ih (g.add_edge x y) hrest hE'
          (by rw [hrev]; exact nodup_insertSet x hN)
        refine ⟨h1, h2, fun a => ?_⟩
        rw [h3 a, hrev, mem_insertSet]
        constructor
        · rintro ((hs | rfl) | hr)
          · exact Or.inl hs
          · exact Or.inr (List.mem_cons_self _ _)
          · exact Or.inr (List.mem_cons_of_mem _ hr)
        · rintro (hs | hmem)
          · exact Or.inl (Or.inl hs)
          · rcases List.mem_cons.mp hmem with heq | hr
            · cases heq
              exact Or.inl (Or.inr rfl)
            · exact Or.inr hr
      · have hrev := reverse_lookup_add_edge_ne g x y b (Ne.symm hy)
        obtain ⟨h1, h2, h3⟩ := ih (g.add_edge x y) hrest hE' (by rw [hrev]; exact hN)
        refine ⟨h1, h2, fun a => ?_⟩
        rw [h3 a, hrev]
        constructor
        · rintro (hs | hr)
          · exact Or.inl hs
          · exact Or.inr (List.mem_cons_of_mem _ hr)
        · rintro (hs | hmem)
          · exact Or.inl hs
          · rcases List.mem_cons.mp hmem with heq | hr
            · exfalso
              injection heq with hax hby
              exact hy hby.symm
            · exact Or.inr hr

/-- Claim C10: a node b that only ever appears as the second argument of
add_edge is invisible on the forward side - dependents_of(b) is none
rather than an empty set and nodes() does not yield b - while
dependency_count(b) still counts b's recorded distinct dependencies. -/
theorem c10_edge_target_invisible (ops : List GOp) (b : Nat)
    (h : ∀ op ∈ ops, avoidsB b op = true) :
    (buildGraph ops).dependents_of b = none
    ∧ b ∉ (buildGraph ops).nodes
    ∧ (buildGraph ops).dependency_count b = (recordedDeps ops b).length := by
  obtain ⟨h1, h2, h3⟩ := c10_build_aux b ops Graph.new h rfl (by simp [Graph.new])
  have h1' : (buildGraph ops).edges.lookup b = none := h1
  have h2' : (((buildGraph ops).reverse.lookup b).getD []).Nodup := h2
  have h3' : ∀ a, a ∈ (((buildGraph ops).reverse.lookup b).getD []) ↔
      (a ∈ ((Graph.new.reverse.lookup b).getD []) ∨ GOp.edge a b ∈ ops) := h3
  refine ⟨h1', ?_, ?_⟩
  · intro hmem
    have hsome := isSome_lookup_of_mem_keys (m := (buildGraph ops).edges) hmem
    rw [h1'] at hsome
    simp at hsome
  · have hcount : (buildGraph ops).dependency_count b =
        (((buildGraph ops).reverse.lookup b).getD []).length := by
      unfold Graph.dependency_count
      cases (buildGraph ops).reverse.lookup b <;> rfl
    rw [hcount]
    have hmem : ∀ a, a ∈ (((buildGraph ops).reverse.lookup b).getD []) ↔
        a ∈ recordedDeps ops b := by
      intro a
      rw [h3' a]
      unfold recordedDeps
      rw [List.mem_dedup, List.mem_filterMap]
      constructor
      · rintro (hs | hmem)
        · simp [Graph.new, List.lookup] at hs
        · exact ⟨GOp.edge a b, hmem, by simp⟩
      · rintro ⟨op, hop, hsome⟩
        cases op with
        | node n => simp at hsome
        | edge p q =>
          simp only at hsome
          by_cases hq : q = b
          · rw [if_pos hq] at hsome
            cases hsome
            right
            rw [hq] at hop
            exact hop
          · rw [if_neg hq] at hsome
            cases hsome
    have hnodup2 : (recordedDeps ops b).Nodup := List.nodup_dedup _
    have e1 : (((buildGraph ops).reverse.lookup b).getD []).toFinset
        = (recordedDeps ops b).toFinset := by
      apply Finset.ext
      intro a
      simp only [List.mem_toFinset]
      exact hmem a
    calc (((buildGraph ops).reverse.lookup b).getD []).length
        = (((buildGraph ops).reverse.lookup b).getD []).toFinset.card :=
          (List.toFinset_card_of_nodup h2').symm
      _ = (recordedDeps ops b).toFinset.card := by rw [e1]
      _ = (recordedDeps ops b).length := List.toFinset_card_of_nodup hnodup2

/-- Witness for claim C10: a concrete build where node 2 appears only as
an edge target. -/
theorem c10_edge_target_invisible_witness :
    (buildGraph opsC10).dependents_of 2 = none
    ∧ 2 ∉ (buildGraph opsC10).nodes
    ∧ (buildGraph opsC10).dependency_count 2 = (recordedDeps opsC10 2).length :=
  c10_edge_target_invisible opsC10 2 (by decide)

/-! ## Lemmas about the traversal ingredients -/

theorem mem_keys_of_lookup {α : Type} {m : List (Nat × α)} {k : Nat} {v : α}
    (h : m.lookup k = some v) : k ∈ m.map Prod.fst := by
  induction m with
  | nil => simp [List.lookup] at h
  | cons p rest ih =>
    rcases p with ⟨a, w⟩
    by_cases hk : k = a
    · subst hk; simp
    · rw [lookup_cons_ne _ _ hk] at h
      simp only [List.map_cons, List.mem_cons]
      exact Or.inr (ih h)

theorem edge_iff_neighbors {g : Graph} {u v : Nat} :
    EdgeB g u v ↔ v ∈ (g.neighbors_of u).getD [] := by
  unfold EdgeB Graph.neighbors_of
  cases h : g.edges.lookup u with
  | none => simp
  | some s =>
    simp only [Option.getD_some, Option.bind_some]
    by_cases hs : s = []
    · subst hs; simp
    · have hne : s.isEmpty = false := by simp [hs]
      rw [show ((some s).bind fun t => if t.isEmpty = true then none else some t)
            = (if s.isEmpty = true then none else some s) from rfl]
      rw [hne]
      simp

theorem edge_source_mem_nodes {g : Graph} {u v : Nat} (h : EdgeB g u v) :
    u ∈ g.nodes := by
  unfold EdgeB at h
  cases hl : g.edges.lookup u with
  | none => rw [hl] at h; simp at h
  | some s => exact mem_keys_of_lookup hl

theorem mem_pairs_of_lookup {α : Type} {m : List (Nat × α)} {k : Nat}
    {v : α} (h : m.lookup k = some v) : (k, v) ∈ m := by
  induction m with
  | nil => simp [List.lookup] at h
  | cons p rest ih =>
    rcases p with ⟨a, w⟩
    by_cases hk : k = a
    · subst hk
      rw [lookup_cons_self] at h
      cases h
      simp
    · rw [lookup_cons_ne _ _ hk] at h
      exact List.mem_cons_of_mem _ (ih h)

theorem mem_univ_of_edge {g : Graph} {u v : Nat} (h : EdgeB g u v) :
    v ∈ univ g := by
  unfold EdgeB at h
  cases hl : g.edges.lookup u with
  | none => rw [hl] at h; simp at h
  | some s =>
    rw [hl] at h
    unfold univ
    refine List.mem_append_right _ ?_
    rw [List.mem_flatten]
    exact ⟨s, by
      rw [List.mem_map]
      exact ⟨(u, s), mem_pairs_of_lookup hl, rfl⟩, h⟩

theorem mem_univ_of_mem_nodes {g : Graph} {u : Nat} (h : u ∈ g.nodes) :
    u ∈ univ g :=
  List.mem_append_left _ h

theorem ucount_le_univ (g : Graph) (st : TopoState) :
    ucount g st ≤ (univ g).length :=
  List.length_filter_le _ _

theorem ucount_mono {g : Graph} {st st2 : TopoState}
    (h : ∀ x ∈ st.visited, x ∈ st2.visited) :
    ucount g st2 ≤ ucount g st := by
  unfold ucount
  refine List.Sublist.length_le (List.monotone_filter_right _ ?_)
  intro a ha
  simp only [decide_eq_true_eq] at ha ⊢
  intro hmem
  exact ha (h a hmem)

theorem ucount_cons_lt {g : Graph} {st : TopoState} {node : Nat}
    (hu : node ∈ univ g) (hv : node ∉ st.visited) :
    ((univ g).filter (fun x => decide (x ∉ node :: st.visited))).length
      < ucount g st := by
  unfold ucount
  have hsub : List.Sublist
      ((univ g).filter (fun x => decide (x ∉ node :: st.visited)))
      ((univ g).filter (fun x => decide (x ∉ st.visited))) := by
    refine List.monotone_filter_right _ ?_
    intro a ha
    simp only [decide_eq_true_eq, List.mem_cons] at ha ⊢
    intro hmem
    exact ha (Or.inr hmem)
  refine Nat.lt_of_le_of_ne hsub.length_le ?_
  intro heq
  have heqlist := hsub.eq_of_length heq
  have hmem2 : node ∈ (univ g).filter (fun x => decide (x ∉ st.visited)) := by
    rw [List.mem_filter]
    exact ⟨hu, by simpa using hv⟩
  rw [← heqlist] at hmem2
  rw [List.mem_filter] at hmem2
  simp at hmem2

theorem Ext.refl (st : TopoState) : Ext st st :=
  ⟨fun _ h => h, fun _ h => h, fun _ h => h, fun _ _ => rfl⟩

theorem Ext.trans {st1 st2 st3 : TopoState} (h1 : Ext st1 st2)
    (h2 : Ext st2 st3) : Ext st1 st3 := by
  refine ⟨?_, ?_, ?_, ?_⟩
  · exact fun x hx => h2.vis x (h1.vis x hx)
  · exact fun x hx => h2.topo x (h1.topo x hx)
  · exact fun p hp => h2.res p (h1.res p hp)
  · intro x hx
    rw [h2.et x (h1.vis x hx), h1.et x hx]

theorem Ext.isOk_of {st st2 : TopoState} (h : Ext st st2)
    (hok : st2.isOk) : st.isOk := by
  unfold TopoState.isOk at *
  cases hres : st.result with
  | none => rfl
  | some p =>
    have := h.res p hres
    rw [this] at hok
    exact absurd hok (by simp)

theorem IsChain.stable {et et2 : List (Nat × Nat)} {l : List Nat}
    (h : IsChain et l) (hst : ∀ x ∈ l, et2.lookup x = et.lookup x) :
    IsChain et2 l := by
  induction h with
  | nil => exact .nil
  | single n hn =>
    exact .single n ((hst n (by simp)).trans hn)
  | cons n p rest hn hc ih =>
    refine .cons n p rest ((hst n (by simp)).trans hn) ?_
    exact ih (fun x hx => hst x (List.mem_cons_of_mem _ hx))

theorem IsChain.dropLast_lookup {et : List (Nat × Nat)} {l : List Nat}
    (h : IsChain et l) : ∀ x ∈ l.dropLast, (et.lookup x).isSome := by
  induction h with
  | nil => intro x hx; simp at hx
  | single n hn => intro x hx; simp at hx
  | cons n p rest hn hc ih =>
    intro x hx
    rw [show (n :: p :: rest).dropLast = n :: (p :: rest).dropLast from rfl]
      at hx
    rcases List.mem_cons.mp hx with rfl | hx2
    · simp [hn]
    · exact ih x hx2

theorem nodup_length_le_of_subset {l keys : List Nat} (hn : l.Nodup)
    (hsub : ∀ x ∈ l, x ∈ keys) : l.length ≤ keys.length := by
  calc l.length = l.toFinset.card := (List.toFinset_card_of_nodup hn).symm
    _ ≤ keys.toFinset.card := by
        refine Finset.card_le_card ?_
        intro a ha
        rw [List.mem_toFinset] at ha ⊢
        exact hsub a ha
    _ ≤ keys.length := List.toFinset_card_le _

theorem IsChain.tail_length_le {et : List (Nat × Nat)} {n : Nat}
    {r : List Nat} (h : IsChain et (n :: r)) (hn : (n :: r).Nodup) :
    r.length ≤ et.length := by
  have hdl : ∀ x ∈ (n :: r).dropLast, x ∈ et.map Prod.fst := by
    intro x hx
    have := h.dropLast_lookup x hx
    cases hl : et.lookup x with
    | none => rw [hl] at this; exact absurd this (by simp)
    | some u => exact mem_keys_of_lookup hl
  have hnd : (n :: r).dropLast.Nodup :=
    (List.dropLast_sublist _).nodup hn
  have := nodup_length_le_of_subset hnd hdl
  rw [List.length_dropLast] at this
  simpa using this.trans (by rw [List.length_map])

theorem traceBack_of_chain {et : List (Nat × Nat)} :
    ∀ (r : List Nat) (n : Nat) (acc : List Nat) (fuelT : Nat),
    IsChain et (n :: r) → r.length ≤ fuelT →
    traceBack fuelT et n acc = r.reverse ++ acc := by
  intro r
  induction r with
  | nil =>
    intro n acc fuelT hc _
    have hn : et.lookup n = none := by cases hc with | single _ h => exact h
    cases fuelT with
    | zero => rfl
    | succ f =>
      unfold traceBack
      rw [hn]
      rfl
  | cons p rest ih =>
    intro n acc fuelT hc hlen
    have hn : et.lookup n = some p ∧ IsChain et (p :: rest) := by
      cases hc with | cons _ _ _ h1 h2 => exact ⟨h1, h2⟩
    cases fuelT with
    | zero => simp at hlen
    | succ f =>
      have hstep : traceBack (f + 1) et n acc = traceBack f et p (p :: acc) := by
        show (match et.lookup n with
              | none => acc
              | some q => traceBack f et q (q :: acc)) = _
        rw [hn.1]
      have hlen2 : rest.length ≤ f := by
        simpa using Nat.succ_le_succ_iff.mp (by simpa using hlen)
      rw [hstep, ih p (p :: acc) f hn.2 hlen2]
      simp

theorem IsChain.chain'_flip {g : Graph} {et : List (Nat × Nat)}
    {l : List Nat} (h : IsChain et l)
    (hedge : ∀ v u, et.lookup v = some u → EdgeB g u v) :
    List.Chain' (fun a b => EdgeB g b a) l := by
  induction h with
  | nil => exact List.chain'_nil
  | single n hn => exact List.chain'_singleton n
  | cons n p rest hn hc ih =>
    rw [List.chain'_cons]
    exact ⟨hedge n p hn, ih⟩

theorem topoProp_cons {g : Graph} {l : List Nat} {n : Nat}
    (h : TopoProp g l) (hn : n ∉ l)
    (hnb : ∀ v, EdgeB g n v → v ∈ l) : TopoProp g (n :: l) := by
  obtain ⟨hnd, hord⟩ := h
  refine ⟨List.nodup_cons.mpr ⟨hn, hnd⟩, ?_⟩
  intro u v he hu
  rcases List.mem_cons.mp hu with rfl | hu2
  · have hv := hnb v he
    have hvne : v ≠ u := fun heq => hn (heq ▸ hv)
    refine ⟨List.mem_cons_of_mem _ hv, ?_⟩
    rw [List.indexOf_cons_self]
    rw [List.indexOf_cons_ne _ (Ne.symm hvne)]
    exact Nat.succ_pos _
  · obtain ⟨hv, hlt⟩ := hord u v he hu2
    have hune : u ≠ n := fun heq => hn (heq ▸ hu2)
    have hvne : v ≠ n := fun heq => hn (heq ▸ hv)
    refine ⟨List.mem_cons_of_mem _ hv, ?_⟩
    rw [List.indexOf_cons_ne _ (Ne.symm hune), List.indexOf_cons_ne _ (Ne.symm hvne)]
    exact Nat.succ_lt_succ hlt

/-! ## The depth-first search invariant proof -/

theorem dfsF_zero (g : Graph) (node : Nat) (st : TopoState) :
    dfsF g 0 node st = st := rfl

theorem dfsF_succ (g : Graph) (f node : Nat) (st : TopoState) :
    dfsF g (f + 1) node st =
      (let st1 : TopoState :=
        { st with onStack := node :: st.onStack, visited := node :: st.visited }
       let p := goF g (dfsF g f) node ((g.neighbors_of node).getD []) st1
       if p.2 then p.1
       else { p.1 with
              onStack := p.1.onStack.erase node,
              topological := node :: p.1.topological }) := rfl

theorem goF_nil (g : Graph) (dfsRec : Nat → TopoState → TopoState)
    (node : Nat) (st : TopoState) :
    goF g dfsRec node [] st = (st, false) := rfl

theorem goF_cons (g : Graph) (dfsRec : Nat → TopoState → TopoState)
    (node v : Nat) (rest : List Nat) (st : TopoState) :
    goF g dfsRec node (v :: rest) st =
      (if st.result.isSome then (st, true)
       else if v ∉ st.visited then
         goF g dfsRec node rest
           (dfsRec v { st with edgeTo := (v, node) :: st.edgeTo })
       else if v ∈ st.onStack then
         goF g dfsRec node rest
           { st with result := some (cyclePath st.edgeTo node v) }
       else
         goF g dfsRec node rest st) := rfl

theorem goF_spec (g : Graph) (fuel : Nat)
    (dfsRec : Nat → TopoState → TopoState)
    (hdfs : ∀ (node : Nat) (st : TopoState), Inv g st → EtVisX st node →
      node ∈ univ g → node ∉ st.visited → ucount g st ≤ fuel →
      (st.isOk → IsChain st.edgeTo (node :: st.onStack)) →
      DfsOut g node st (dfsRec node st)) :
    ∀ (ns : List Nat) (node : Nat) (st : TopoState), Inv g st → EtVis st →
      ucount g st ≤ fuel → (∀ v ∈ ns, EdgeB g node v) →
      (st.isOk → IsChain st.edgeTo st.onStack) →
      (st.isOk → ∃ r, st.onStack = node :: r) →
      GoOut g node ns st (goF g dfsRec node ns st) := by
  intro ns
  induction ns with
  | nil =>
    intro node st hInv hEtv hfuel hedge hchain hstack
    rw [goF_nil]
    exact ⟨hInv, Ext.refl st, hEtv, fun x hx => hx, by simp, fun _ => rfl,
      fun _ _ v hv => absurd hv (by simp)⟩
  | cons v rest ih =>
    intro node st hInv hEtv hfuel hedge hchain hstack
    rw [goF_cons]
    by_cases hres : st.result.isSome
    · rw [if_pos hres]
      have hnok : ¬ (st, true).1.isOk := by
        intro hk
        rw [TopoState.isOk] at hk
        rw [hk] at hres
        exact absurd hres (by simp)
      exact ⟨hInv, Ext.refl st, hEtv, fun x hx => hx, fun _ => hnok,
        fun hk => absurd hk hnok, fun hk => absurd hk hnok⟩
    · rw [if_neg hres]
      have hok : st.isOk := by
        rw [TopoState.isOk]
        exact Option.not_isSome_iff_eq_none.mp hres
      by_cases hvis : v ∈ st.visited
      · rw [if_neg (show ¬ v ∉ st.visited from fun hh => hh hvis)]
        by_cases hstk : v ∈ st.onStack
        · -- cycle detected: record the error path
          rw [if_pos hstk]
          obtain ⟨r, hr⟩ := hstack hok
          have hchn : IsChain st.edgeTo (node :: r) := hr ▸ hchain hok
          have hnd : (node :: r).Nodup := hr ▸ hInv.stack_nodup
          have hpath : PathProp g (cyclePath st.edgeTo node v) := by
            have htr : cyclePath st.edgeTo node v =
                r.reverse ++ [node, v] := by
              unfold cyclePath
              exact traceBack_of_chain r node [node, v] st.edgeTo.length
                hchn (hchn.tail_length_le hnd)
            have hform : cyclePath st.edgeTo node v =
                (node :: r).reverse ++ [v] := by
              rw [htr, List.reverse_cons, List.append_assoc]
              rfl
            rw [hform]
            constructor
            · rw [List.chain'_append]
              refine ⟨?_, List.chain'_singleton v, ?_⟩
              · rw [List.chain'_reverse]
                exact hchn.chain'_flip hInv.et_edge
              · intro x hx y hy
                rw [List.getLast?_reverse] at hx
                simp only [List.head?_cons, Option.mem_def, Option.some.injEq]
                  at hx hy
                subst hx
                subst hy
                exact hedge v (List.mem_cons_self _ _)
            · refine ⟨v, List.getLast?_concat _, ?_⟩
              rw [List.dropLast_concat, List.mem_reverse]
              exact hr ▸ hstk
          have hInvC : Inv g { st with
              result := some (cyclePath st.edgeTo node v) } :=
            { stack_vis := hInv.stack_vis
              topo_vis := hInv.topo_vis
              vis_split := hInv.vis_split
              stack_nodup := hInv.stack_nodup
              stack_topo := hInv.stack_topo
              topo_prop := fun hN => absurd hN (by simp)
              et_edge := hInv.et_edge
              res_path := fun p hp => by
                simp only [Option.some.injEq] at hp
                exact hp ▸ hpath }
          have hout := ih node { st with
              result := some (cyclePath st.edgeTo node v) }
            hInvC hEtv hfuel
            (fun w hw => hedge w (List.mem_cons_of_mem _ hw))
            (fun hk => absurd hk (by rw [TopoState.isOk]; simp))
            (fun hk => absurd hk (by rw [TopoState.isOk]; simp))
          have hextC : Ext st { st with
              result := some (cyclePath st.edgeTo node v) } :=
            ⟨fun x hx => hx, fun x hx => hx,
             fun p hp => by
               rw [TopoState.isOk] at hok
               rw [hok] at hp
               exact absurd hp (by simp),
             fun x _ => rfl⟩
          have hnok2 : ¬ (goF g dfsRec node rest { st with
              result := some (cyclePath st.edgeTo node v) }).1.isOk := by
            intro hk
            have := hout.ext.res (cyclePath st.edgeTo node v) rfl
            rw [TopoState.isOk] at hk
            rw [hk] at this
            exact absurd this (by simp)
          exact ⟨hout.inv, hextC.trans hout.ext, hout.etv,
            fun x hx => hout.stack_mem x hx,
            fun _ => hnok2, fun hk => absurd hk hnok2,
            fun hk => absurd hk hnok2⟩
        · -- neighbor already processed and off the stack
          rw [if_neg hstk]
          have hout := ih node st hInv hEtv hfuel
            (fun w hw => hedge w (List.mem_cons_of_mem _ hw)) hchain hstack
          refine ⟨hout.inv, hout.ext, hout.etv, hout.stack_mem, hout.early,
            hout.oks, ?_⟩
          intro hk hfalse w hw
          rcases List.mem_cons.mp hw with rfl | hw2
          · have hvt : w ∈ st.topological :=
              (hInv.vis_split w hvis).resolve_left hstk
            exact hout.ext.topo w hvt
          · exact hout.oka hk hfalse w hw2
      · -- unvisited neighbor: recurse into it
        rw [if_pos hvis]
        have hedgev : EdgeB g node v := hedge v (List.mem_cons_self _ _)
        have hInvV : Inv g { st with edgeTo := (v, node) :: st.edgeTo } :=
          { stack_vis := hInv.stack_vis
            topo_vis := hInv.topo_vis
            vis_split := hInv.vis_split
            stack_nodup := hInv.stack_nodup
            stack_topo := hInv.stack_topo
            topo_prop := hInv.topo_prop
            et_edge := by
              intro x u hx
              by_cases hxv : x = v
              · subst hxv
                rw [lookup_cons_self] at hx
                cases hx
                exact hedgev
              · rw [lookup_cons_ne _ _ hxv] at hx
                exact hInv.et_edge x u hx
            res_path := hInv.res_path }
        have hEtvX : EtVisX { st with edgeTo := (v, node) :: st.edgeTo } v := by
          intro x u hx
          by_cases hxv : x = v
          · exact Or.inr hxv
          · rw [lookup_cons_ne _ _ hxv] at hx
            exact Or.inl (hEtv x u hx)
        have hchainV : ({ st with edgeTo := (v, node) :: st.edgeTo}).isOk →
            IsChain ({ st with edgeTo := (v, node) :: st.edgeTo}).edgeTo
              (v :: ({ st with edgeTo := (v, node) :: st.edgeTo}).onStack) := by
          intro hk
          obtain ⟨r, hr⟩ := hstack hok
          have hchn : IsChain st.edgeTo (node :: r) := hr ▸ hchain hok
          show IsChain ((v, node) :: st.edgeTo) (v :: st.onStack)
          rw [hr]
          refine IsChain.cons v node r (lookup_cons_self _ _ _) ?_
          refine hchn.stable ?_
          intro x hx
          have hxvis : x ∈ st.visited := hInv.stack_vis x (hr ▸ hx)
          have hxv : x ≠ v := fun hh => hvis (hh ▸ hxvis)
          exact lookup_cons_ne _ _ hxv
        have hd := hdfs v { st with edgeTo := (v, node) :: st.edgeTo }
          hInvV hEtvX (mem_univ_of_edge hedgev) hvis hfuel hchainV
        have hextV : Ext st { st with edgeTo := (v, node) :: st.edgeTo } :=
          ⟨fun x hx => hx, fun x hx => hx, fun p hp => hp,
           fun x hx => lookup_cons_ne _ _ (fun hh => hvis (hh ▸ hx))⟩
        have hfuel2 : ucount g (dfsRec v
            { st with edgeTo := (v, node) :: st.edgeTo }) ≤ fuel :=
          le_trans (ucount_mono hd.ext.vis) hfuel
        have hchain2 : (dfsRec v
              { st with edgeTo := (v, node) :: st.edgeTo }).isOk →
            IsChain (dfsRec v
              { st with edgeTo := (v, node) :: st.edgeTo }).edgeTo
              (dfsRec v
              { st with edgeTo := (v, node) :: st.edgeTo }).onStack := by
          intro hk2
          have hkV := hd.ext.isOk_of hk2
          have hchn := hchain hok
          have hstep1 : IsChain ((v, node) :: st.edgeTo) st.onStack := by
            refine hchn.stable ?_
            intro x hx
            have hxvis : x ∈ st.visited := hInv.stack_vis x hx
            exact lookup_cons_ne _ _ (fun hh => hvis (hh ▸ hxvis))
          have hstep2 : IsChain (dfsRec v
              { st with edgeTo := (v, node) :: st.edgeTo }).edgeTo
              st.onStack := by
            refine hstep1.stable ?_
            intro x hx
            exact hd.ext.et x (hInv.stack_vis x hx)
          rw [(hd.oks hk2).1]
          exact hstep2
        have hstack2 : (dfsRec v
              { st with edgeTo := (v, node) :: st.edgeTo }).isOk →
            ∃ r, (dfsRec v
              { st with edgeTo := (v, node) :: st.edgeTo }).onStack
                = node :: r := by
          intro hk2
          obtain ⟨r, hr⟩ := hstack (hd.ext.isOk_of hk2)
          exact ⟨r, by rw [(hd.oks hk2).1]; exact hr⟩
        have hout := ih node (dfsRec v
            { st with edgeTo := (v, node) :: st.edgeTo })
          hd.inv hd.etv hfuel2
          (fun w hw => hedge w (List.mem_cons_of_mem _ hw))
          hchain2 hstack2
        refine ⟨hout.inv, (hextV.trans hd.ext).trans hout.ext, hout.etv,
          ?_, hout.early, ?_, ?_⟩
        · intro x hx
          exact hout.stack_mem x (hd.stack_mem x hx)
        · intro hk
          rw [hout.oks hk, (hd.oks (hout.ext.isOk_of hk)).1]
        · intro hk hfalse w hw
          rcases List.mem_cons.mp hw with rfl | hw2
          · exact hout.ext.topo w (hd.oks (hout.ext.isOk_of hk)).2
          · exact hout.oka hk hfalse w hw2

theorem dfsF_spec (g : Graph) : ∀ (fuel node : Nat) (st : TopoState),
    Inv g st → EtVisX st node → node ∈ univ g → node ∉ st.visited →
    ucount g st ≤ fuel →
    (st.isOk → IsChain st.edgeTo (node :: st.onStack)) →
    DfsOut g node st (dfsF g fuel node st) := by
  intro fuel
  induction fuel with
  | zero =>
    intro node st hInv hEtvX huniv hvis hfuel hchain
    exfalso
    have hmem : node ∈ (univ g).filter (fun x => decide (x ∉ st.visited)) := by
      rw [List.mem_filter]
      exact ⟨huniv, by simpa using hvis⟩
    have hpos : 0 < ucount g st := List.length_pos_of_mem hmem
    omega
  | succ f ihf =>
    intro node st hInv hEtvX huniv hvis hfuel hchain
    rw [dfsF_succ]
    have hnstk : node ∉ st.onStack := fun hh => hvis (hInv.stack_vis node hh)
    have hInv1 : Inv g { st with onStack := node :: st.onStack, visited := node :: st.visited } :=
      { stack_vis := by
          intro x hx
          rcases List.mem_cons.mp hx with rfl | hx2
          · exact List.mem_cons_self _ _
          · exact List.mem_cons_of_mem _ (hInv.stack_vis x hx2)
        topo_vis := fun x hx => List.mem_cons_of_mem _ (hInv.topo_vis x hx)
        vis_split := by
          intro x hx
          rcases List.mem_cons.mp hx with rfl | hx2
          · exact Or.inl (List.mem_cons_self _ _)
          · rcases hInv.vis_split x hx2 with hs | ht
            · exact Or.inl (List.mem_cons_of_mem _ hs)
            · exact Or.inr ht
        stack_nodup := List.nodup_cons.mpr ⟨hnstk, hInv.stack_nodup⟩
        stack_topo := by
          intro x hx
          rcases List.mem_cons.mp hx with rfl | hx2
          · intro ht
            exact hvis (hInv.topo_vis x ht)
          · exact hInv.stack_topo x hx2
        topo_prop := hInv.topo_prop
        et_edge := hInv.et_edge
        res_path := hInv.res_path }
    have hEtv1 : EtVis { st with onStack := node :: st.onStack, visited := node :: st.visited } := by
      intro x u hx
      rcases hEtvX x u hx with hv | rfl
      · exact List.mem_cons_of_mem _ hv
      · exact List.mem_cons_self _ _
    have hfuel1 : ucount g { st with onStack := node :: st.onStack, visited := node :: st.visited } ≤ f := by
      have hlt := ucount_cons_lt huniv hvis
      have : ucount g { st with onStack := node :: st.onStack, visited := node :: st.visited } < ucount g st := hlt
      omega
    have hedge1 : ∀ v ∈ (g.neighbors_of node).getD [], EdgeB g node v :=
      fun v hv => edge_iff_neighbors.mpr hv
    have hchain1 : ({ st with onStack := node :: st.onStack, visited := node :: st.visited } : TopoState).isOk →
        IsChain st.edgeTo (node :: st.onStack) := fun hk => hchain hk
    have hgo := goF_spec g f (dfsF g f) ihf ((g.neighbors_of node).getD []) node
      { st with onStack := node :: st.onStack, visited := node :: st.visited }
      hInv1 hEtv1 hfuel1 hedge1 hchain1 (fun _ => ⟨st.onStack, rfl⟩)
    set o := goF g (dfsF g f) node ((g.neighbors_of node).getD [])
      { st with onStack := node :: st.onStack, visited := node :: st.visited } with ho
    have hext1 : Ext st { st with onStack := node :: st.onStack, visited := node :: st.visited } :=
      ⟨fun x hx => List.mem_cons_of_mem _ hx, fun x hx => hx,
       fun p hp => hp, fun x _ => rfl⟩
    have hvisnode : node ∈ o.1.visited :=
      hgo.ext.vis node (List.mem_cons_self _ _)
    show DfsOut g node st
      (if o.2 then o.1
       else { o.1 with onStack := o.1.onStack.erase node, topological := node :: o.1.topological })
    by_cases hearly : o.2 = true
    · rw [if_pos hearly]
      refine ⟨hgo.inv, hext1.trans hgo.ext, hgo.etv, hvisnode, ?_, ?_⟩
      · intro x hx
        exact hgo.stack_mem x (List.mem_cons_of_mem _ hx)
      · intro hk
        exact absurd hk (hgo.early hearly)
    · rw [if_neg hearly]
      have hfalse : o.2 = false := by
        cases h2 : o.2
        · rfl
        · exact absurd h2 hearly
      have hInvO := hgo.inv
      have hoks : o.1.isOk → o.1.onStack = node :: st.onStack := hgo.oks
      by_cases hok2 : o.1.isOk
      · -- clean completion: pop the node and push it to the ordering
        have hstk : o.1.onStack = node :: st.onStack := hoks hok2
        have herase : o.1.onStack.erase node = st.onStack := by
          rw [hstk]
          exact List.erase_cons_head node st.onStack
        have hntopo : node ∉ o.1.topological :=
          hInvO.stack_topo node (hstk ▸ List.mem_cons_self _ _)
        have htp : TopoProp g (node :: o.1.topological) := by
          refine topoProp_cons (hInvO.topo_prop hok2) hntopo ?_
          intro w hw
          exact hgo.oka hok2 hfalse w (edge_iff_neighbors.mp hw)
        refine ⟨?_, ?_, ?_, hvisnode, ?_, ?_⟩
        · exact
            { stack_vis := fun x hx => by
                rw [herase] at hx
                exact hInvO.stack_vis x (hstk ▸ List.mem_cons_of_mem _ hx)
              topo_vis := fun x hx => by
                rcases List.mem_cons.mp hx with rfl | hx2
                · exact hvisnode
                · exact hInvO.topo_vis x hx2
              vis_split := fun x hx => by
                rcases hInvO.vis_split x hx with hs | ht
                · rw [hstk] at hs
                  rcases List.mem_cons.mp hs with rfl | hs2
                  · exact Or.inr (List.mem_cons_self _ _)
                  · rw [herase]
                    exact Or.inl hs2
                · exact Or.inr (List.mem_cons_of_mem _ ht)
              stack_nodup := hInvO.stack_nodup.erase node
              stack_topo := fun x hx => by
                rw [herase] at hx
                intro ht
                rcases List.mem_cons.mp ht with rfl | ht2
                · exact hnstk hx
                · exact hInvO.stack_topo x
                    (hstk ▸ List.mem_cons_of_mem _ hx) ht2
              topo_prop := fun _ => htp
              et_edge := hInvO.et_edge
              res_path := hInvO.res_path }
        · exact
            { vis := fun x hx => (hext1.trans hgo.ext).vis x hx
              topo := fun x hx =>
                List.mem_cons_of_mem _ ((hext1.trans hgo.ext).topo x hx)
              res := fun p hp => (hext1.trans hgo.ext).res p hp
              et := fun x hx => (hext1.trans hgo.ext).et x hx }
        · exact fun x u hx => hgo.etv x u hx
        · intro x hx
          have hne : x ≠ node := fun hh => hnstk (hh ▸ hx)
          rw [herase]
          exact hx
        · intro _
          exact ⟨herase, List.mem_cons_self _ _⟩
      · -- an error was recorded somewhere below: still pop and push
        have hnotok : ¬ ({ o.1 with onStack := o.1.onStack.erase node, topological := node :: o.1.topological } : TopoState).isOk :=
          fun hk => hok2 hk
        refine ⟨?_, ?_, ?_, hvisnode, ?_, ?_⟩
        · exact
            { stack_vis := fun x hx =>
                hInvO.stack_vis x ((List.erase_sublist _ _).subset hx)
              topo_vis := fun x hx => by
                rcases List.mem_cons.mp hx with rfl | hx2
                · exact hvisnode
                · exact hInvO.topo_vis x hx2
              vis_split := fun x hx => by
                rcases hInvO.vis_split x hx with hs | ht
                · by_cases hxn : x = node
                  · exact Or.inr (hxn ▸ List.mem_cons_self _ _)
                  · exact Or.inl ((List.mem_erase_of_ne hxn).mpr hs)
                · exact Or.inr (List.mem_cons_of_mem _ ht)
              stack_nodup := hInvO.stack_nodup.erase node
              stack_topo := fun x hx => by
                have hx2 := (hInvO.stack_nodup.mem_erase_iff).mp hx
                intro ht
                rcases List.mem_cons.mp ht with rfl | ht2
                · exact hx2.1 rfl
                · exact hInvO.stack_topo x hx2.2 ht2
              topo_prop := fun hN => absurd hN hnotok
              et_edge := hInvO.et_edge
              res_path := hInvO.res_path }
        · exact
            { vis := fun x hx => (hext1.trans hgo.ext).vis x hx
              topo := fun x hx =>
                List.mem_cons_of_mem _ ((hext1.trans hgo.ext).topo x hx)
              res := fun p hp => (hext1.trans hgo.ext).res p hp
              et := fun x hx => (hext1.trans hgo.ext).et x hx }
        · exact fun x u hx => hgo.etv x u hx
        · intro x hx
          have hxs : x ∈ o.1.onStack :=
            hgo.stack_mem x (List.mem_cons_of_mem _ hx)
          have hne : x ≠ node := fun hh => hnstk (hh ▸ hx)
          exact (List.mem_erase_of_ne hne).mpr hxs
        · intro hk
          exact absurd hk hnotok

theorem inv_new (g : Graph) : Inv g TopoState.new :=
  { stack_vis := fun _ hx => nomatch hx
    topo_vis := fun _ hx => nomatch hx
    vis_split := fun _ hx => nomatch hx
    stack_nodup := List.nodup_nil
    stack_topo := fun _ hx => nomatch hx
    topo_prop := fun _ =>
      ⟨List.nodup_nil, fun _ _ _ hu => nomatch hu⟩
    et_edge := fun _ _ hv => nomatch hv
    res_path := fun _ hp => nomatch hp }

theorem etv_new : EtVis TopoState.new :=
  fun _ _ hx => nomatch hx

theorem allLoop_spec (g : Graph) (fuel : Nat)
    (hbig : (univ g).length < fuel) :
    ∀ (ns : List Nat) (st : TopoState), Inv g st → EtVis st →
      (∀ n ∈ ns, n ∈ univ g) → (st.isOk → st.onStack = []) →
      AllOut g ns st (allLoop g fuel ns st) := by
  intro ns
  induction ns with
  | nil =>
    intro st hInv hEtv _ _
    exact ⟨hInv, Ext.refl st, hEtv, fun n hn => absurd hn (by simp),
      fun _ => rfl⟩
  | cons n rest ih =>
    intro st hInv hEtv hmem hstk0
    show AllOut g (n :: rest) st
      (allLoop g fuel rest (if n ∈ st.visited then st else dfsF g fuel n st))
    by_cases hv : n ∈ st.visited
    · rw [if_pos hv]
      have hout := ih st hInv hEtv
        (fun m hm => hmem m (List.mem_cons_of_mem _ hm)) hstk0
      refine ⟨hout.inv, hout.ext, hout.etv, ?_, hout.oks⟩
      intro m hm
      rcases List.mem_cons.mp hm with rfl | hm2
      · exact hout.ext.vis m hv
      · exact hout.vis m hm2
    · rw [if_neg hv]
      have hchain : st.isOk → IsChain st.edgeTo (n :: st.onStack) := by
        intro hk
        rw [hstk0 hk]
        refine IsChain.single n ?_
        cases hlk : st.edgeTo.lookup n with
        | none => rfl
        | some u => exact absurd (hEtv n u hlk) hv
      have hd := dfsF_spec g fuel n st hInv
        (fun x u hx => Or.inl (hEtv x u hx)) (hmem n (List.mem_cons_self _ _))
        hv (le_of_lt (lt_of_le_of_lt (ucount_le_univ g st) hbig)) hchain
      have hout := ih (dfsF g fuel n st) hd.inv hd.etv
        (fun m hm => hmem m (List.mem_cons_of_mem _ hm))
        (fun hk2 => by
          rw [(hd.oks hk2).1]
          exact hstk0 (hd.ext.isOk_of hk2))
      refine ⟨hout.inv, hd.ext.trans hout.ext, hout.etv, ?_, ?_⟩
      · intro m hm
        rcases List.mem_cons.mp hm with rfl | hm2
        · exact hout.ext.vis m hd.vis
        · exact hout.vis m hm2
      · intro hk
        rw [hout.oks hk, (hd.oks (hout.ext.isOk_of hk)).1]

theorem resolve_ok_spec {g : Graph} {O : List Nat}
    (h : g.resolve_all = .ok O) :
    TopoProp g O ∧ ∀ u ∈ g.nodes, u ∈ O := by
  have hall := allLoop_spec g ((univ g).length + 1) (Nat.lt_succ_self _)
    g.nodes TopoState.new (inv_new g) etv_new
    (fun n hn => mem_univ_of_mem_nodes hn) (fun _ => rfl)
  rw [Graph.resolve_all] at h
  cases hres : (allLoop g ((univ g).length + 1) g.nodes TopoState.new).result
    with
  | some p =>
    rw [hres] at h
    cases h
  | none =>
    rw [hres] at h
    have hO : (allLoop g ((univ g).length + 1) g.nodes
        TopoState.new).topological = O := by
      cases h
      rfl
    refine ⟨hO ▸ hall.inv.topo_prop hres, ?_⟩
    intro u hu
    have hvisu := hall.vis u hu
    rcases hall.inv.vis_split u hvisu with hs | ht
    · rw [hall.oks hres] at hs
      exact absurd hs (by simp [TopoState.new])
    · exact hO ▸ ht

theorem resolve_err_spec {g : Graph} {p : List Nat}
    (h : g.resolve_all = .error p) : PathProp g p := by
  have hall := allLoop_spec g ((univ g).length + 1) (Nat.lt_succ_self _)
    g.nodes TopoState.new (inv_new g) etv_new
    (fun n hn => mem_univ_of_mem_nodes hn) (fun _ => rfl)
  rw [Graph.resolve_all] at h
  cases hres : (allLoop g ((univ g).length + 1) g.nodes TopoState.new).result
    with
  | some q =>
    rw [hres] at h
    have : q = p := by cases h; rfl
    exact this ▸ hall.inv.res_path q hres
  | none =>
    rw [hres] at h
    cases h

theorem topoProp_path {g : Graph} {O : List Nat} (ht : TopoProp g O) :
    ∀ {a b : Nat}, EdgePathP g a b → a ∈ O →
      b ∈ O ∧ O.indexOf a < O.indexOf b := by
  intro a b hp
  induction hp with
  | single he => exact fun ha => ht.2 _ _ he ha
  | cons he hp ih =>
    intro ha
    obtain ⟨hv, hlt⟩ := ht.2 _ _ he ha
    obtain ⟨hb, hlt2⟩ := ih hv
    exact ⟨hb, lt_trans hlt hlt2⟩

theorem acyclic_of_topo {g : Graph} {O : List Nat} (ht : TopoProp g O)
    (hnodes : ∀ u ∈ g.nodes, u ∈ O) : Acyclic g := by
  intro u hcyc
  have hu : u ∈ O := by
    have hex : ∃ v, EdgeB g u v := by
      cases hcyc with
      | single he => exact ⟨_, he⟩
      | cons he _ => exact ⟨_, he⟩
    obtain ⟨v, he⟩ := hex
    exact hnodes u (edge_source_mem_nodes he)
  obtain ⟨_, hlt⟩ := topoProp_path ht hcyc hu
  exact lt_irrefl _ hlt

theorem chain_to_path {g : Graph} : ∀ (l : List Nat) (c b : Nat),
    List.Chain' (EdgeB g) (c :: l) → l.getLast? = some b →
    EdgePathP g c b := by
  intro l
  induction l with
  | nil =>
    intro c b _ hb
    simp at hb
  | cons x t ih =>
    intro c b hch hb
    have h1 := List.chain'_cons.mp hch
    cases t with
    | nil =>
      simp at hb
      subst hb
      exact .single h1.1
    | cons y tt =>
      rw [List.getLast?_cons_cons] at hb
      exact .cons h1.1 (ih x b h1.2 hb)

theorem cycle_of_pathProp {g : Graph} {p : List Nat} (h : PathProp g p) :
    ∃ u, EdgePathP g u u := by
  obtain ⟨hch, c, hlast, hmem⟩ := h
  obtain ⟨l1, l2, hsplit⟩ := List.append_of_mem hmem
  have hne : p ≠ [] := by
    intro hh
    rw [hh] at hlast
    simp at hlast
  have hp : p = p.dropLast ++ [c] := by
    have hgl := List.dropLast_append_getLast hne
    rw [List.getLast?_eq_getLast p hne] at hlast
    have : p.getLast hne = c := by
      simpa using hlast
    rw [this] at hgl
    exact hgl.symm
  rw [hsplit] at hp
  have hp2 : p = l1 ++ (c :: (l2 ++ [c])) := by
    rw [hp]
    simp
  have hch2 : List.Chain' (EdgeB g) (c :: (l2 ++ [c])) := by
    rw [hp2] at hch
    exact (List.chain'_append.mp hch).2.1
  exact ⟨c, chain_to_path (l2 ++ [c]) c c hch2 (List.getLast?_concat _)⟩

theorem acyclic_of_resolve_ok {g : Graph} {O : List Nat}
    (h : g.resolve = .ok O) : Acyclic g := by
  obtain ⟨ht, hmem⟩ := resolve_ok_spec (g := g) h
  exact acyclic_of_topo ht hmem

/-- Claim C1: on an acyclic graph, resolve (resolve_all) succeeds with an
ordering in which, for every recorded edge (u, v), both endpoints appear
and the index of u is strictly smaller than the index of v.  The theorem
holds for every Graph value, in particular for every graph built by
add_node/add_edge calls. -/
theorem c1_resolve_topological_order (g : Graph) (hacy : Acyclic g) :
    ∃ O, g.resolve = .ok O ∧ ∀ u v, EdgeB g u v →
      (u ∈ O ∧ v ∈ O ∧ O.indexOf u < O.indexOf v) := by
  cases hres : g.resolve with
  | error p =>
    exfalso
    have hpp := resolve_err_spec (g := g) hres
    obtain ⟨u, hu⟩ := cycle_of_pathProp hpp
    exact hacy u hu
  | ok O =>
    obtain ⟨ht, hmem⟩ := resolve_ok_spec (g := g) hres
    refine ⟨O, rfl, ?_⟩
    intro u v he
    have hu : u ∈ O := hmem u (edge_source_mem_nodes he)
    obtain ⟨hv, hlt⟩ := ht.2 u v he hu
    exact ⟨hu, hv, hlt⟩

/-- Witness for claim C1 at a concrete acyclic graph. -/
theorem c1_resolve_topological_order_witness :
    ∃ O, gC1W.resolve = .ok O ∧ ∀ u v, EdgeB gC1W u v →
      (u ∈ O ∧ v ∈ O ∧ O.indexOf u < O.indexOf v) :=
  c1_resolve_topological_order gC1W
    (acyclic_of_resolve_ok (O := [1, 2, 3]) rfl)

/-- Claim C2, counterexample: the graph with edges 1 to 2, 2 to 3 and
3 to 2 contains a directed cycle, and resolve reports the error path
[1, 2, 3, 2], whose last element 2 differs from its first element 1 -
the reported path leads from the search root into the cycle rather than
starting on it. -/
theorem c2_cycle_path_counterexample :
    EdgePathP gC2X 2 2
    ∧ gC2X.resolve = .error [1, 2, 3, 2]
    ∧ ([1, 2, 3, 2].getLast? ≠ [1, 2, 3, 2].head?) :=
  ⟨EdgePathP.cons (show EdgeB gC2X 2 3 by decide)
    (EdgePathP.single (show EdgeB gC2X 3 2 by decide)), rfl, by decide⟩

/-- Claim C2 as amended: on every graph with a directed cycle, resolve
(resolve_all) returns an error whose path has every consecutive pair an
edge of the graph, and whose last element equals some earlier element of
the path (the cycle is the segment between the two occurrences); the
first element need not equal the last. -/
theorem c2_cycle_error_path (g : Graph)
    (hcyc : ∃ u, EdgePathP g u u) :
    ∃ p, g.resolve = .error p ∧ List.Chain' (EdgeB g) p
      ∧ ∃ c, p.getLast? = some c ∧ c ∈ p.dropLast := by
  cases hres : g.resolve with
  | ok O =>
    exfalso
    obtain ⟨u, hu⟩ := hcyc
    exact acyclic_of_resolve_ok (g := g) hres u hu
  | error p =>
    obtain ⟨hch, c, hc1, hc2⟩ := resolve_err_spec (g := g) hres
    exact ⟨p, rfl, hch, c, hc1, hc2⟩

/-- Witness for claim C2 as amended, at a concrete cyclic graph. -/
theorem c2_cycle_error_path_witness :
    ∃ p, gC2X.resolve = .error p ∧ List.Chain' (EdgeB gC2X) p
      ∧ ∃ c, p.getLast? = some c ∧ c ∈ p.dropLast :=
  c2_cycle_error_path gC2X ⟨2, EdgePathP.cons (show EdgeB gC2X 2 3 by decide)
    (EdgePathP.single (show EdgeB gC2X 3 2 by decide))⟩

/-! ## Claims C4 and C5: Manager::update -/

theorem updateScan_no_match (rules : List (Nat × Rule)) (paths : List Nat) :
    ∀ (fin : List (Nat × MBind)),
    (∀ pr ∈ fin,
      match rules.lookup pr.2.name with
      | none => False
      | some rule =>
        match rule.kind with
        | Kind.Creating => True
        | Kind.Matching pattern =>
          (paths.filter (fun p => pattern.matches p)).isEmpty = true) →
    ∃ didnt binds, updateScan rules paths fin = some ([], didnt, binds) := by
  intro fin
  induction fin with
  | nil => exact fun _ => ⟨[], [], rfl⟩
  | cons pr rest ih =>
    intro h
    have hhead := h pr (List.mem_cons_self _ _)
    have hrest := ih (fun q hq => h q (List.mem_cons_of_mem _ hq))
    obtain ⟨didnt, binds, hscan⟩ := hrest
    rcases pr with ⟨k, bind⟩
    cases hlk : rules.lookup bind.name with
    | none =>
      rw [hlk] at hhead
      exact absurd hhead (by simp)
    | some rule =>
      have hhead2 : (match rule.kind with
          | Kind.Creating => True
          | Kind.Matching pattern =>
            (paths.filter (fun p => pattern.matches p)).isEmpty = true) := by
        rw [hlk] at hhead
        exact hhead
      cases hkind : rule.kind with
      | Creating =>
        refine ⟨didnt, binds, ?_⟩
        simp only [updateScan, hlk, hkind]
        exact hscan
      | Matching pattern =>
        have hempty2 : (paths.filter (fun p => pattern.matches p)).isEmpty
            = true := by
          rw [hkind] at hhead2
          exact hhead2
        have hempty : paths.filter (fun p => pattern.matches p) = [] :=
          List.isEmpty_iff.mp hempty2
        have hlen : ¬ ((paths.filter (fun p => pattern.matches p)).length > 0) := by
          rw [hempty]
          simp
        refine ⟨bind.name :: didnt, binds, ?_⟩
        simp only [updateScan, hlk, hkind, hscan, if_neg hlen]

/-- Claim C5: when no finished Matching bind's pattern matches any of
the changed paths, update returns before clearing the waiting queue:
the manager (waiting queue, dependency counts, finished table, graph
and count) is unchanged and no job is handed to the evaluator. -/
theorem c5_update_untouched_is_noop (m : ManagerM) (paths : List Nat)
    (h : untouchedB m paths = true) :
    m.update paths = some (m, []) := by
  unfold ManagerM.update
  by_cases hc : m.count = 0
  · rw [if_pos hc]
  · rw [if_neg hc]
    have hall := List.all_eq_true.mp h
    have hscan := updateScan_no_match m.rules paths m.finished ?hyp
    case hyp =>
      intro pr hpr
      have hb := hall pr hpr
      cases hlk : m.rules.lookup pr.2.name with
      | none =>
        rw [hlk] at hb
        exact absurd hb (by simp)
      | some rule =>
        have hb2 : (match rule.kind with
            | Kind.Creating => true
            | Kind.Matching pattern =>
              (paths.filter (fun p => pattern.matches p)).isEmpty) = true := by
          rw [hlk] at hb
          exact hb
        show (match rule.kind with
          | Kind.Creating => True
          | Kind.Matching pattern =>
            (paths.filter (fun p => pattern.matches p)).isEmpty = true)
        cases hkind : rule.kind with
        | Creating =>
          exact trivial
        | Matching pattern =>
          have hb3 : (match Kind.Matching pattern with
              | Kind.Creating => true
              | Kind.Matching pattern =>
                (paths.filter (fun p => pattern.matches p)).isEmpty) = true := by
            rw [← hkind]
            exact hb2
          exact hb3
    obtain ⟨didnt, binds, hscan2⟩ := hscan
    rw [hscan2]
    simp

def mC5paths : List Nat := [7]

/-- Witness for claim C5: a path that no finished pattern matches
leaves the manager untouched and enqueues nothing. -/
theorem c5_update_untouched_is_noop_witness :
    mC4.update mC5paths = some (mC4, []) :=
  c5_update_untouched_is_noop mC4 mC5paths (by decide)

/-- Claim C4, evaluated at the failing input: in mC4, rule 2's only
graph dependency is rule 1, which lies outside the resolved order [2];
rule 1 is Creating, so the scan files it in neither matched nor didnt,
and after the didnt subtraction rule 2's remaining count is 1, not 0:
enqueue_ready dispatches nothing and the job stays waiting, so the
dequeue loop that follows (job_count = 1 iterations) can never receive
a completion. -/
theorem c4_untouched_creating_dependency_stalls :
    (updateScan mC4.rules [9] mC4.finished).map
        (fun t => (t.1, t.2.1)) = some ([2], [])
    ∧ mC4.graph.resolve_from [2] = .ok [2]
    ∧ mC4.graph.dependencies_of 2 = some [1]
    ∧ (1 ∉ ([2] : List Nat))
    ∧ (mC4.update [9]).map
        (fun r => (r.2.map MJob.name, r.1.dependencies.lookup 2,
                   r.1.waiting.map MJob.name))
      = some ([], some 1, [2]) :=
  ⟨rfl, rfl, rfl, by decide, rfl⟩

/-! ## Claim C3: the full-build counter invariant -/

theorem filter_length_lt_of_mem {l : List Nat} {p : Nat → Bool} {a : Nat}
    (ha : a ∈ l) (hpa : p a = false) : (l.filter p).length < l.length := by
  have hsub : List.Sublist (l.filter p) l := List.filter_sublist l
  rcases Nat.lt_or_ge (l.filter p).length l.length with h | h
  · exact h
  · have heq : l.filter p = l :=
      hsub.eq_of_length (Nat.le_antisymm hsub.length_le h)
    have ha' : a ∈ l.filter p := by rw [heq]; exact ha
    have hp := (List.mem_filter.mp ha').2
    rw [hpa] at hp
    exact absurd hp (by simp)

theorem filter_mem_append_eq {rev : List Nat} (F : List Nat) {b : Nat}
    (hb : b ∉ rev) :
    rev.filter (fun d => decide (d ∈ F ++ [b]))
      = rev.filter (fun d => decide (d ∈ F)) := by
  apply List.filter_congr
  intro d hd
  have hdb : d ≠ b := fun h => hb (h ▸ hd)
  simp [List.mem_append, hdb]

theorem filter_mem_append_succ {rev F : List Nat} {b : Nat}
    (hnd : rev.Nodup) (hb : b ∈ rev) (hbF : b ∉ F) :
    (rev.filter (fun d => decide (d ∈ F ++ [b]))).length
      = (rev.filter (fun d => decide (d ∈ F))).length + 1 := by
  induction rev with
  | nil => simp at hb
  | cons x rest ih =>
    have hndr : rest.Nodup := hnd.of_cons
    by_cases hx : x = b
    · subst hx
      have hxr : x ∉ rest := (List.nodup_cons.mp hnd).1
      have h1 : rest.filter (fun d => decide (d ∈ F ++ [x]))
          = rest.filter (fun d => decide (d ∈ F)) := filter_mem_append_eq F hxr
      simp only [List.filter_cons]
      rw [h1]
      have hin : (decide (x ∈ F ++ [x])) = true := by simp
      have hout : (decide (x ∈ F)) = false := by simpa using hbF
      rw [hin, hout]
      simp
    · rcases List.mem_cons.mp hb with h | hbr
      · exact absurd h.symm hx
      · simp only [List.filter_cons]
        have hxeq : (decide (x ∈ F ++ [b])) = (decide (x ∈ F)) := by
          simp [List.mem_append, hx]
        rw [hxeq]
        by_cases hxF : (decide (x ∈ F)) = true
        · simp only [if_pos hxF, List.length_cons]
          rw [ih hndr hbr]
        · simp only [if_neg hxF]
          exact ih hndr hbr

theorem edgeSet_new (n : Nat) : edgeSet Graph.new n = [] := rfl

theorem revSet_new (n : Nat) : revSet Graph.new n = [] := rfl

theorem edgeSet_add_node (g : Graph) (k n : Nat) :
    edgeSet (g.add_node k) n = edgeSet g n := by
  unfold edgeSet Graph.add_node
  cases hE : g.edges.lookup k with
  | some s => rfl
  | none =>
    show ((g.edges ++ [(k, [])]).lookup n).getD [] = _
    by_cases h : n = k
    · subst h
      rw [lookup_append_of_none _ hE, lookup_cons_self, hE]
      rfl
    · cases hn : g.edges.lookup n with
      | some s => rw [lookup_append_left _ hn]
      | none =>
        rw [lookup_append_of_none _ hn, lookup_cons_ne _ _ h]
        rfl

theorem revSet_add_node (g : Graph) (k n : Nat) :
    revSet (g.add_node k) n = revSet g n := by
  unfold revSet
  rw [add_node_reverse]

theorem edgeSet_add_edge_self (g : Graph) (a b : Nat) :
    edgeSet (g.add_edge a b) a = insertSet (edgeSet g a) b := by
  show ((match g.edges.lookup a with
         | some s => updateMap g.edges a (insertSet s b)
         | none => g.edges ++ [(a, [b])]).lookup a).getD [] = _
  cases hE : g.edges.lookup a with
  | none =>
    rw [lookup_append_of_none _ hE, lookup_cons_self]
    simp [edgeSet, hE, insertSet]
  | some s =>
    rw [lookup_updateMap_eq _ hE]
    simp [edgeSet, hE]

theorem edgeSet_add_edge_ne (g : Graph) (a b : Nat) {j : Nat} (h : j ≠ a) :
    edgeSet (g.add_edge a b) j = edgeSet g j := by
  unfold edgeSet
  have : (g.add_edge a b).edges.lookup j = g.edges.lookup j := by
    show (match g.edges.lookup a with
          | some s => updateMap g.edges a (insertSet s b)
          | none => g.edges ++ [(a, [b])]).lookup j = _
    cases hE : g.edges.lookup a with
    | none =>
      cases hj : g.edges.lookup j with
      | none =>
        rw [lookup_append_of_none _ hj, lookup_cons_ne _ _ h]
        rfl
      | some s => rw [lookup_append_left _ hj]
    | some s => exact lookup_updateMap_ne _ _ _ h
  rw [this]

theorem revSet_add_edge_self (g : Graph) (a b : Nat) :
    revSet (g.add_edge a b) b = insertSet (revSet g b) a :=
  revList_add_edge g a b

theorem revSet_add_edge_ne (g : Graph) (a b : Nat) {j : Nat} (h : j ≠ b) :
    revSet (g.add_edge a b) j = revSet g j := by
  unfold revSet
  rw [reverse_lookup_add_edge_ne g a b j h]

theorem graphWF_new : GraphWF Graph.new :=
  ⟨fun a b => by simp [edgeSet_new, revSet_new],
   fun n => by simp [revSet_new]⟩

theorem GraphWF.add_node {g : Graph} (h : GraphWF g) (k : Nat) :
    GraphWF (g.add_node k) := by
  refine ⟨fun a b => ?_, fun n => ?_⟩
  · rw [edgeSet_add_node, revSet_add_node]
    exact h.mirror a b
  · rw [revSet_add_node]
    exact h.rev_nodup n

theorem GraphWF.add_edge {g : Graph} (h : GraphWF g) (a b : Nat) :
    GraphWF (g.add_edge a b) := by
  constructor
  · intro x y
    by_cases hx : x = a <;> by_cases hy : y = b
    · subst hx; subst hy
      rw [edgeSet_add_edge_self, revSet_add_edge_self]
      exact iff_of_true (mem_insertSet.mpr (Or.inr rfl))
        (mem_insertSet.mpr (Or.inr rfl))
    · subst hx
      rw [edgeSet_add_edge_self, revSet_add_edge_ne g x b hy, mem_insertSet]
      constructor
      · rintro (h1 | h1)
        · exact (h.mirror x y).mp h1
        · exact absurd h1 hy
      · intro h1
        exact Or.inl ((h.mirror x y).mpr h1)
    · subst hy
      rw [revSet_add_edge_self, edgeSet_add_edge_ne g a y hx, mem_insertSet]
      constructor
      · intro h1
        exact Or.inl ((h.mirror x y).mp h1)
      · rintro (h1 | h1)
        · exact (h.mirror x y).mpr h1
        · exact absurd h1 hx
    · rw [edgeSet_add_edge_ne g a b hx, revSet_add_edge_ne g a b hy]
      exact h.mirror x y
  · intro n
    by_cases hn : n = b
    · subst hn
      rw [revSet_add_edge_self]
      exact nodup_insertSet a (h.rev_nodup n)
    · rw [revSet_add_edge_ne g a b hn]
      exact h.rev_nodup n

theorem graphWF_foldl_edges (name : Nat) :
    ∀ (ds : List Nat) (g : Graph), GraphWF g →
      GraphWF (ds.foldl (fun g dep => g.add_edge dep name) g)
  | [], _, h => h
  | d :: ds, _g, h => graphWF_foldl_edges name ds _ (h.add_edge d name)

theorem graphWF_manager_add {m : ManagerM} (h : GraphWF m.graph) (r : Rule) :
    GraphWF (m.add r).graph :=
  graphWF_foldl_edges r.name r.dependencies (m.graph.add_node r.name)
    (h.add_node r.name)

theorem graphWF_foldl_add :
    ∀ (rs : List Rule) (m : ManagerM), GraphWF m.graph →
      GraphWF ((rs.foldl ManagerM.add m).graph)
  | [], _, h => h
  | r :: rs, m, h => graphWF_foldl_add rs (m.add r) (graphWF_manager_add h r)

theorem foldl_add_dependencies :
    ∀ (rs : List Rule) (m : ManagerM),
      (rs.foldl ManagerM.add m).dependencies = m.dependencies
  | [], _ => rfl
  | r :: rs, m => foldl_add_dependencies rs (m.add r)

theorem foldl_add_finished :
    ∀ (rs : List Rule) (m : ManagerM),
      (rs.foldl ManagerM.add m).finished = m.finished
  | [], _ => rfl
  | r :: rs, m => foldl_add_finished rs (m.add r)

theorem dependency_count_eq (g : Graph) (n : Nat) :
    g.dependency_count n = (revSet g n).length := by
  unfold Graph.dependency_count revSet
  cases g.reverse.lookup n <;> rfl

theorem dependents_getD (g : Graph) (n : Nat) :
    (g.dependents_of n).getD [] = edgeSet g n := rfl

theorem lookup_eq_none_of_not_mem_keys {α : Type} {m : List (Nat × α)}
    {k : Nat} (h : k ∉ m.map Prod.fst) : m.lookup k = none := by
  cases hl : m.lookup k with
  | none => rfl
  | some v => exact absurd (mem_keys_of_lookup hl) h

theorem insertA_fresh {α : Type} {m : List (Nat × α)} {k : Nat} (v : α)
    (h : m.lookup k = none) : insertA m k v = m ++ [(k, v)] := by
  unfold insertA
  rw [h]
  rfl

theorem lookup_map_pair (f : Nat → Nat) :
    ∀ (l : List Nat) (k c : Nat),
      (l.map (fun n => (n, f n))).lookup k = some c → c = f k := by
  intro l
  induction l with
  | nil =>
    intro k c h
    simp [List.lookup] at h
  | cons a rest ih =>
    intro k c h
    by_cases hk : k = a
    · subst hk
      rw [List.map_cons, lookup_cons_self] at h
      cases h
      rfl
    · rw [List.map_cons, lookup_cons_ne _ _ hk] at h
      exact ih k c h

theorem keys_map_pair {α : Type} (f : Nat → α) (l : List Nat) :
    (l.map (fun n => (n, f n))).map Prod.fst = l := by
  rw [List.map_map]
  show l.map (fun n => n) = l
  exact List.map_id' l

theorem keys_mapAdjust (m : List (Nat × Nat)) (ds : List Nat) :
    (m.map (fun p => if p.1 ∈ ds then (p.1, p.2 - 1) else p)).map Prod.fst
      = m.map Prod.fst := by
  induction m with
  | nil => rfl
  | cons p rest ih =>
    simp only [List.map_cons]
    rw [ih]
    by_cases h : p.1 ∈ ds <;> simp [h]

theorem lookup_mapAdjust (m : List (Nat × Nat)) (ds : List Nat) (n : Nat) :
    (m.map (fun p => if p.1 ∈ ds then (p.1, p.2 - 1) else p)).lookup n
      = (m.lookup n).map (fun c => if n ∈ ds then c - 1 else c) := by
  induction m with
  | nil => rfl
  | cons p rest ih =>
    obtain ⟨a, c⟩ := p
    by_cases ha : n = a
    · subst ha
      by_cases hd : n ∈ ds <;> simp [hd, List.lookup_cons]
    · by_cases hd : a ∈ ds <;>
        simp [hd, lookup_cons_ne _ _ ha, ih, List.lookup_cons,
          beq_eq_false_iff_ne.mpr ha]

theorem satisfy_graph (m : ManagerM) (bind : Nat) :
    (m.satisfy bind).graph = m.graph := by
  unfold ManagerM.satisfy
  cases m.graph.dependents_of bind <;> rfl

theorem satisfy_waiting (m : ManagerM) (bind : Nat) :
    (m.satisfy bind).waiting = m.waiting := by
  unfold ManagerM.satisfy
  cases m.graph.dependents_of bind <;> rfl

theorem satisfy_finished (m : ManagerM) (bind : Nat) :
    (m.satisfy bind).finished = m.finished := by
  unfold ManagerM.satisfy
  cases m.graph.dependents_of bind <;> rfl

theorem satisfy_keys (m : ManagerM) (bind : Nat) :
    (m.satisfy bind).dependencies.map Prod.fst
      = m.dependencies.map Prod.fst := by
  unfold ManagerM.satisfy
  cases m.graph.dependents_of bind with
  | none => rfl
  | some ds => exact keys_mapAdjust m.dependencies ds

theorem satisfy_lookup (m : ManagerM) (bind n : Nat) :
    (m.satisfy bind).dependencies.lookup n
      = (m.dependencies.lookup n).map
          (fun c => if n ∈ edgeSet m.graph bind then c - 1 else c) := by
  unfold ManagerM.satisfy
  cases hE : m.graph.dependents_of bind with
  | none =>
    have he : edgeSet m.graph bind = [] := by
      unfold edgeSet
      unfold Graph.dependents_of at hE
      rw [hE]
      rfl
    rw [he]
    simp
  | some ds =>
    have he : edgeSet m.graph bind = ds := by
      unfold edgeSet
      unfold Graph.dependents_of at hE
      rw [hE]
      rfl
    rw [he]
    exact lookup_mapAdjust m.dependencies ds n

theorem enqueue_ready_fst_graph (m : ManagerM) :
    (m.enqueue_ready).1.graph = m.graph := rfl

theorem enqueue_ready_fst_dependencies (m : ManagerM) :
    (m.enqueue_ready).1.dependencies = m.dependencies := rfl

theorem enqueue_ready_fst_finished (m : ManagerM) :
    (m.enqueue_ready).1.finished = m.finished := rfl

theorem enqueue_ready_fst_waiting (m : ManagerM) :
    (m.enqueue_ready).1.waiting = m.waiting.filter
      (fun job => !(((m.dependencies.lookup job.name).getD 0) == 0)) := by
  show (m.waiting.partition
    (fun job => ((m.dependencies.lookup job.name).getD 0) == 0)).2 = _
  rw [List.partition_eq_filter_filter]
  rfl

theorem enqueue_ready_snd (m : ManagerM) :
    (m.enqueue_ready).2 = m.waiting.filter
      (fun job => ((m.dependencies.lookup job.name).getD 0) == 0) := by
  show (m.waiting.partition
    (fun job => ((m.dependencies.lookup job.name).getD 0) == 0)).1 = _
  rw [List.partition_eq_filter_filter]

theorem process_name (j : MJob) (paths : List Nat) :
    (j.process paths).name = j.name := by
  obtain ⟨name, kind, bind⟩ := j
  cases bind <;> rfl

theorem process_bind_isSome (j : MJob) (paths : List Nat) :
    ∃ b, (j.process paths).bind = some b := by
  obtain ⟨name, kind, bind⟩ := j
  cases bind with
  | some b => exact ⟨b, rfl⟩
  | none => exact ⟨_, rfl⟩

theorem handle_done_eq (m : ManagerM) (j' : MJob) (b : MBind)
    (hb : j'.bind = some b) :
    m.handle_done j'
      = some ((({ m with finished := insertA m.finished j'.name (b.set_stale false) }).satisfy j'.name).enqueue_ready) := by
  unfold ManagerM.handle_done
  rw [hb]

theorem sortLoop_spec (g : Graph) :
    ∀ (order : List Nat) (jm : List (Nat × MJob)) (deps : List (Nat × Nat))
      (js : List MJob) (jm2 : List (Nat × MJob)) (deps2 : List (Nat × Nat)),
      sortLoop g order jm deps = some (js, jm2, deps2) →
      order.Nodup → (∀ n ∈ order, deps.lookup n = none) →
      (∀ p ∈ jm, (p.2 : MJob).name = p.1) →
      js.map MJob.name = order
        ∧ deps2 = deps ++ order.map (fun n => (n, g.dependency_count n)) := by
  intro order
  induction order with
  | nil =>
    intro jm deps js jm2 deps2 h _ _ _
    cases h
    simp
  | cons name rest ih =>
    intro jm deps js jm2 deps2 h hnd hfresh hjm
    cases hlk : jm.lookup name with
    | none =>
      rw [sortLoop, hlk] at h
      cases h
    | some job =>
      rw [sortLoop, hlk] at h
      cases hrec : sortLoop g rest (removeA jm name)
          (bumpA deps name (g.dependency_count name)) with
      | none =>
        rw [hrec] at h
        cases h
      | some t =>
        obtain ⟨js', jm2', deps2'⟩ := t
        rw [hrec] at h
        cases h
        have hjob : job.name = name := hjm _ (mem_pairs_of_lookup hlk)
        have hfr : deps.lookup name = none :=
          hfresh name (List.mem_cons_self _ _)
        have hbump : bumpA deps name (g.dependency_count name)
            = deps ++ [(name, g.dependency_count name)] := by
          unfold bumpA
          rw [hfr]
          rfl
        have hnamenotin : name ∉ rest := (List.nodup_cons.mp hnd).1
        have hfresh2 : ∀ n ∈ rest,
            (bumpA deps name (g.dependency_count name)).lookup n = none := by
          intro n hn
          have hne : n ≠ name := by
            intro he
            rw [he] at hn
            exact hnamenotin hn
          rw [hbump,
            lookup_append_of_none _ (hfresh n (List.mem_cons_of_mem _ hn)),
            lookup_cons_ne _ _ hne]
          rfl
        have hjm2 : ∀ p ∈ removeA jm name, (p.2 : MJob).name = p.1 :=
          fun p hp => hjm p (List.mem_of_mem_filter hp)
        obtain ⟨h1, h2⟩ := ih (removeA jm name)
          (bumpA deps name (g.dependency_count name)) js' jm2 deps2
          hrec (List.nodup_cons.mp hnd).2 hfresh2 hjm2
        constructor
        · rw [List.map_cons, hjob, h1]
        · rw [h2, hbump, List.append_assoc]
          rfl

theorem sort_jobs_spec {m : ManagerM} {order : List Nat} {m1 : ManagerM}
    (h : m.sort_jobs order = some m1) (hnd : order.Nodup)
    (hfresh : ∀ n ∈ order, m.dependencies.lookup n = none) :
    m1.graph = m.graph ∧ m1.finished = m.finished
      ∧ m1.waiting.map MJob.name = order
      ∧ m1.dependencies = m.dependencies
          ++ order.map (fun n => (n, m.graph.dependency_count n)) := by
  unfold ManagerM.sort_jobs at h
  split at h
  · cases h
  · split at h
    next heq => cases h
    next js jm2 deps2 heq =>
      split at h
      next hemp =>
        cases h
        have hjm : ∀ p ∈ (m.waiting.map fun job => (job.name, job)),
            (p.2 : MJob).name = p.1 := by
          intro p hp
          obtain ⟨job, _, rfl⟩ := List.mem_map.mp hp
          rfl
        obtain ⟨h1, h2⟩ := sortLoop_spec m.graph order _ _ js jm2 deps2
          heq hnd hfresh hjm
        exact ⟨rfl, rfl, h1, h2⟩
      next hemp => cases h

theorem map_filter_perm (W : List MJob) (p : MJob → Bool) :
    ((W.filter (fun j => !(p j))).map MJob.name
      ++ (W.filter p).map MJob.name).Perm (W.map MJob.name) := by
  rw [← List.map_append]
  exact (List.perm_append_comm.trans (List.filter_append_perm p W)).map
    MJob.name

theorem enqueue_ready_names_perm (m : ManagerM) :
    ((m.enqueue_ready).1.waiting.map MJob.name
      ++ (m.enqueue_ready).2.map MJob.name).Perm
      (m.waiting.map MJob.name) := by
  rw [enqueue_ready_fst_waiting, enqueue_ready_snd]
  exact map_filter_perm m.waiting _

theorem minv_step {g : Graph} {order paths : List Nat} {bs bs' : BState}
    (hwf : GraphWF g) (hnd : order.Nodup)
    (hinv : MInv g order bs) (hstep : BStep paths bs bs') :
    MInv g order bs' := by
  cases hstep with
  | done pre post j m2 newJobs hsplit hdone =>
    obtain ⟨b, hb⟩ := process_bind_isSome j paths
    rw [handle_done_eq bs.m (j.process paths) b hb, process_name] at hdone
    have hpair := Option.some.inj hdone
    have hm2 : ((({ bs.m with finished := insertA bs.m.finished j.name (b.set_stale false) } : ManagerM).satisfy j.name).enqueue_ready).1 = m2 :=
      congrArg Prod.fst hpair
    have hnj : ((({ bs.m with finished := insertA bs.m.finished j.name (b.set_stale false) } : ManagerM).satisfy j.name).enqueue_ready).2 = newJobs :=
      congrArg Prod.snd hpair
    have hjin : j.name ∈ bs.inflight.map MJob.name := by
      rw [hsplit]
      simp
    have hLnodup := (hinv.perm.symm).nodup hnd
    have hjnotF : j.name ∉ bs.m.finished.map Prod.fst := by
      rcases List.nodup_append.mp hLnodup with ⟨_, _, hdisj⟩
      exact hdisj (List.mem_append_right _ hjin)
    have hfinlk : bs.m.finished.lookup j.name = none :=
      lookup_eq_none_of_not_mem_keys hjnotF
    have hins : insertA bs.m.finished j.name (b.set_stale false)
        = bs.m.finished ++ [(j.name, b.set_stale false)] :=
      insertA_fresh _ hfinlk
    have hfk : m2.finished = bs.m.finished ++ [(j.name, b.set_stale false)] := by
      rw [← hm2, enqueue_ready_fst_finished, satisfy_finished]
      exact hins
    have hfkeys : m2.finished.map Prod.fst
        = bs.m.finished.map Prod.fst ++ [j.name] := by
      rw [hfk, List.map_append]
      rfl
    refine ⟨?_, ?_, ?_, ?_⟩
    · show m2.graph = g
      rw [← hm2, enqueue_ready_fst_graph, satisfy_graph]
      exact hinv.graph_eq
    · show m2.dependencies.map Prod.fst = order
      rw [← hm2, enqueue_ready_fst_dependencies, satisfy_keys]
      exact hinv.keys_eq
    · show (m2.waiting.map MJob.name
        ++ ((pre ++ post) ++ newJobs).map MJob.name
        ++ m2.finished.map Prod.fst).Perm order
      have hep := enqueue_ready_names_perm
        (({ bs.m with finished := insertA bs.m.finished j.name (b.set_stale false) } : ManagerM).satisfy j.name)
      rw [hm2, hnj, satisfy_waiting] at hep
      have hep' : (m2.waiting.map MJob.name
          ++ newJobs.map MJob.name).Perm (bs.m.waiting.map MJob.name) := hep
      have hold := hinv.perm
      rw [hsplit, List.map_append, List.map_cons] at hold
      rw [hfkeys, List.map_append, List.map_append]
      apply Multiset.coe_eq_coe.mp
      have hA : ((m2.waiting.map MJob.name : Multiset Nat)
          + (newJobs.map MJob.name : Multiset Nat))
          = (bs.m.waiting.map MJob.name : Multiset Nat) :=
        Multiset.coe_eq_coe.mpr hep'
      have hB : (((bs.m.waiting.map MJob.name : Multiset Nat)
          + ((pre.map MJob.name : Multiset Nat)
            + ({j.name} + (post.map MJob.name : Multiset Nat))))
          + (bs.m.finished.map Prod.fst : Multiset Nat))
          = (order : Multiset Nat) := Multiset.coe_eq_coe.mpr hold
      show ((m2.waiting.map MJob.name : Multiset Nat)
          + (((pre.map MJob.name : Multiset Nat)
            + (post.map MJob.name : Multiset Nat))
            + (newJobs.map MJob.name : Multiset Nat)))
          + ((bs.m.finished.map Prod.fst : Multiset Nat) + {j.name})
          = (order : Multiset Nat)
      rw [← hB, ← hA]
      abel
    · intro n c' hc'
      show c' + ((revSet g n).filter
          (fun d => decide (d ∈ m2.finished.map Prod.fst))).length
        = (revSet g n).length
      rw [← hm2, enqueue_ready_fst_dependencies, satisfy_lookup] at hc'
      have hc'' : (bs.m.dependencies.lookup n).map
          (fun c => if n ∈ edgeSet bs.m.graph j.name then c - 1 else c)
          = some c' := hc'
      rw [hinv.graph_eq] at hc''
      cases hlk : bs.m.dependencies.lookup n with
      | none =>
        rw [hlk] at hc''
        cases hc''
      | some c0 =>
        rw [hlk] at hc''
        simp only [Option.map_some'] at hc''
        have hc0 := hinv.counters n c0 hlk
        rw [hfkeys]
        by_cases hmem : n ∈ edgeSet g j.name
        · have hrev : j.name ∈ revSet g n := (hwf.mirror j.name n).mp hmem
          have hlt : ((revSet g n).filter
              (fun d => decide (d ∈ bs.m.finished.map Prod.fst))).length
              < (revSet g n).length :=
            filter_length_lt_of_mem hrev (decide_eq_false hjnotF)
          have hsucc := filter_mem_append_succ (hwf.rev_nodup n) hrev hjnotF
          have hceq : c' = c0 - 1 := by
            rw [if_pos hmem] at hc''
            exact (Option.some.inj hc'').symm
          rw [hceq, hsucc]
          omega
        · have hrev : j.name ∉ revSet g n :=
            fun hr => hmem ((hwf.mirror j.name n).mpr hr)
          have heqf := filter_mem_append_eq
            (bs.m.finished.map Prod.fst) hrev
          have hceq : c' = c0 := by
            rw [if_neg hmem] at hc''
            exact (Option.some.inj hc'').symm
          rw [hceq, heqf]
          exact hc0

theorem minv_init {rs : List Rule} {order : List Nat} {m1 : ManagerM}
    (hres : (rs.foldl ManagerM.add ManagerM.new).graph.resolve_all
      = .ok order)
    (hsort : (rs.foldl ManagerM.add ManagerM.new).sort_jobs order
      = some m1) :
    MInv (rs.foldl ManagerM.add ManagerM.new).graph order
      ⟨(m1.enqueue_ready).1, (m1.enqueue_ready).2⟩ := by
  have hnd : order.Nodup := (resolve_ok_spec hres).1.1
  have hdeps0 : (rs.foldl ManagerM.add ManagerM.new).dependencies = [] :=
    foldl_add_dependencies rs ManagerM.new
  have hfin0 : (rs.foldl ManagerM.add ManagerM.new).finished = [] :=
    foldl_add_finished rs ManagerM.new
  have hfresh : ∀ n ∈ order,
      (rs.foldl ManagerM.add ManagerM.new).dependencies.lookup n = none := by
    intro n _
    rw [hdeps0]
    rfl
  obtain ⟨hg, hf, hw, hd⟩ := sort_jobs_spec hsort hnd hfresh
  rw [hdeps0, List.nil_append] at hd
  rw [hfin0] at hf
  refine ⟨?_, ?_, ?_, ?_⟩
  · show (m1.enqueue_ready).1.graph = _
    rw [enqueue_ready_fst_graph, hg]
  · show (m1.enqueue_ready).1.dependencies.map Prod.fst = order
    rw [enqueue_ready_fst_dependencies, hd, keys_map_pair]
  · show ((m1.enqueue_ready).1.waiting.map MJob.name
      ++ (m1.enqueue_ready).2.map MJob.name
      ++ (m1.enqueue_ready).1.finished.map Prod.fst).Perm order
    rw [enqueue_ready_fst_finished, hf]
    simp only [List.map_nil, List.append_nil]
    exact (enqueue_ready_names_perm m1).trans
      (by rw [hw] : (m1.waiting.map MJob.name).Perm order)
  · intro n c hc
    show c + ((revSet (rs.foldl ManagerM.add ManagerM.new).graph n).filter
        (fun d => decide
          (d ∈ (m1.enqueue_ready).1.finished.map Prod.fst))).length
      = (revSet (rs.foldl ManagerM.add ManagerM.new).graph n).length
    rw [enqueue_ready_fst_dependencies, hd] at hc
    have hcval := lookup_map_pair _ order n c hc
    rw [enqueue_ready_fst_finished, hf, hcval, dependency_count_eq]
    simp

theorem step_counters_mono {paths : List Nat} {bs bs' : BState}
    (hstep : BStep paths bs bs') (n : Nat) (c' : Nat)
    (hc' : bs'.m.dependencies.lookup n = some c') :
    ∃ c, bs.m.dependencies.lookup n = some c ∧ c' ≤ c := by
  cases hstep with
  | done pre post j m2 newJobs hsplit hdone =>
    obtain ⟨b, hb⟩ := process_bind_isSome j paths
    rw [handle_done_eq bs.m (j.process paths) b hb, process_name] at hdone
    have hm2 : ((({ bs.m with finished := insertA bs.m.finished j.name (b.set_stale false) } : ManagerM).satisfy j.name).enqueue_ready).1 = m2 :=
      congrArg Prod.fst (Option.some.inj hdone)
    have hc2 : m2.dependencies.lookup n = some c' := hc'
    rw [← hm2, enqueue_ready_fst_dependencies, satisfy_lookup] at hc2
    have hc3 : (bs.m.dependencies.lookup n).map
        (fun c => if n ∈ edgeSet bs.m.graph j.name then c - 1 else c)
        = some c' := hc2
    cases hlk : bs.m.dependencies.lookup n with
    | none =>
      rw [hlk] at hc3
      cases hc3
    | some c0 =>
      rw [hlk] at hc3
      simp only [Option.map_some'] at hc3
      have hval := Option.some.inj hc3
      refine ⟨c0, rfl, ?_⟩
      by_cases hmem : n ∈ edgeSet bs.m.graph j.name
      · rw [if_pos hmem] at hval
        omega
      · rw [if_neg hmem] at hval
        omega

theorem step_counters_zero_stable {paths : List Nat} {bs bs' : BState}
    (hstep : BStep paths bs bs') (n : Nat)
    (h0 : bs.m.dependencies.lookup n = some 0) :
    bs'.m.dependencies.lookup n = some 0 := by
  cases hstep with
  | done pre post j m2 newJobs hsplit hdone =>
    obtain ⟨b, hb⟩ := process_bind_isSome j paths
    rw [handle_done_eq bs.m (j.process paths) b hb, process_name] at hdone
    have hm2 : ((({ bs.m with finished := insertA bs.m.finished j.name (b.set_stale false) } : ManagerM).satisfy j.name).enqueue_ready).1 = m2 :=
      congrArg Prod.fst (Option.some.inj hdone)
    show m2.dependencies.lookup n = some 0
    rw [← hm2, enqueue_ready_fst_dependencies, satisfy_lookup]
    show (bs.m.dependencies.lookup n).map
      (fun c => if n ∈ edgeSet bs.m.graph j.name then c - 1 else c) = some 0
    rw [h0]
    simp

theorem minv_reach {g : Graph} {order paths : List Nat} {bs0 bs : BState}
    (hwf : GraphWF g) (hnd : order.Nodup) (hinv0 : MInv g order bs0)
    (hreach : Relation.ReflTransGen (BStep paths) bs0 bs) :
    MInv g order bs := by
  induction hreach with
  | refl => exact hinv0
  | tail _ hstep ih => exact minv_step hwf hnd ih hstep

theorem minv_positive {g : Graph} {order : List Nat} {bs : BState}
    (hwf : GraphWF g) (hnd : order.Nodup) (hinv : MInv g order bs)
    (pre : List MJob) (j : MJob) (post : List MJob)
    (hsplit : bs.inflight = pre ++ j :: post)
    (n : Nat) (hn : n ∈ (bs.m.graph.dependents_of j.name).getD [])
    (c : Nat) (hc : bs.m.dependencies.lookup n = some c) : 0 < c := by
  have hjin : j.name ∈ bs.inflight.map MJob.name := by
    rw [hsplit]
    simp
  have hLnodup := (hinv.perm.symm).nodup hnd
  have hjnotF : j.name ∉ bs.m.finished.map Prod.fst := by
    rcases List.nodup_append.mp hLnodup with ⟨_, _, hdisj⟩
    exact hdisj (List.mem_append_right _ hjin)
  have hn' : n ∈ edgeSet g j.name := by
    rw [hinv.graph_eq, dependents_getD] at hn
    exact hn
  have hrev : j.name ∈ revSet g n := (hwf.mirror j.name n).mp hn'
  have hlt : ((revSet g n).filter
      (fun d => decide (d ∈ bs.m.finished.map Prod.fst))).length
      < (revSet g n).length :=
    filter_length_lt_of_mem hrev (decide_eq_false hjnotF)
  have hcnt := hinv.counters n c hc
  omega

/-- Claim C3: during a full build - the rules folded in by Manager::add,
the graph resolved to a topological order, sort_jobs succeeded, the
ready jobs handed to the evaluator, and any number of completions
dispatched back in any order - every decrement performed by satisfy
hits a strictly positive remaining-dependency counter: for every
in-flight job, every dependent of it holding a counter entry holds a
positive count, so the usize subtraction never underflows.  Moreover a
completion step never increases a counter and leaves a zero counter at
zero, so each rule's counter reaches zero at most once over the
build. -/
theorem c3_full_build_counters_positive
    (rs : List Rule) (paths order : List Nat) (m1 : ManagerM) (bs : BState)
    (hres : (rs.foldl ManagerM.add ManagerM.new).graph.resolve_all
      = .ok order)
    (hsort : (rs.foldl ManagerM.add ManagerM.new).sort_jobs order
      = some m1)
    (hreach : Relation.ReflTransGen (BStep paths)
      ⟨(m1.enqueue_ready).1, (m1.enqueue_ready).2⟩ bs) :
    (∀ pre j post, bs.inflight = pre ++ j :: post →
      ∀ n ∈ (bs.m.graph.dependents_of j.name).getD [],
        ∀ c, bs.m.dependencies.lookup n = some c → 0 < c)
    ∧ (∀ bs', BStep paths bs bs' → ∀ n c',
        bs'.m.dependencies.lookup n = some c' →
        ∃ c, bs.m.dependencies.lookup n = some c ∧ c' ≤ c)
    ∧ (∀ bs', BStep paths bs bs' → ∀ n,
        bs.m.dependencies.lookup n = some 0 →
        bs'.m.dependencies.lookup n = some 0) := by
  have hwf : GraphWF (rs.foldl ManagerM.add ManagerM.new).graph :=
    graphWF_foldl_add rs ManagerM.new graphWF_new
  have hnd : order.Nodup := (resolve_ok_spec hres).1.1
  have hinv := minv_reach hwf hnd (minv_init hres hsort) hreach
  refine ⟨?_, ?_, ?_⟩
  · intro pre j post hsplit n hn c hc
    exact minv_positive hwf hnd hinv pre j post hsplit n hn c hc
  · intro bs' hstep n c' hc'
    exact step_counters_mono hstep n c' hc'
  · intro bs' hstep n h0
    exact step_counters_zero_stable hstep n h0

/-- Claim C3 witness: the theorem applied to the two-rule build rsC3
at the initial reachable dispatch state. -/
theorem c3_full_build_counters_positive_witness :
    ((rsC3.foldl ManagerM.add ManagerM.new).graph.resolve_all = .ok [1, 2]
      ∧ (rsC3.foldl ManagerM.add ManagerM.new).sort_jobs [1, 2] = some mC3)
    ∧ ((∀ pre j post, bsC3.inflight = pre ++ j :: post →
          ∀ n ∈ (bsC3.m.graph.dependents_of j.name).getD [],
            ∀ c, bsC3.m.dependencies.lookup n = some c → 0 < c)
        ∧ (∀ bs', BStep [] bsC3 bs' → ∀ n c',
            bs'.m.dependencies.lookup n = some c' →
            ∃ c, bsC3.m.dependencies.lookup n = some c ∧ c' ≤ c)
        ∧ (∀ bs', BStep [] bsC3 bs' → ∀ n,
            bsC3.m.dependencies.lookup n = some 0 →
            bs'.m.dependencies.lookup n = some 0)) :=
  ⟨⟨rfl, rfl⟩,
    c3_full_build_counters_positive rsC3 [] [1, 2] mC3 bsC3 rfl rfl
      Relation.ReflTransGen.refl⟩
